import Mathlib

/-!
Verification of the Agent Bridge server (`main.py`).

This file gives a shallow embedding of the persistent state and the request
handlers of the Agent Bridge collaboration server, and proves (or refutes)
the specification claims about registration, conversations, the inbox,
the task state machine, and the revision ("agent git") subsystem.

Conventions of the embedding:
* SQLite tables become Lean lists of records; an SQL `INSERT` conses a row.
* `time.time()` values and the `created_at`/`timestamp` columns are rationals.
* Each mutating handler returns `Except HErr α × Store`; when it returns an
  error the store component is the unchanged input store (raising an
  `HTTPException` before `conn.commit()` leaves the database untouched).
* `uuid.uuid4()` results are passed in as parameters; step relations carry
  freshness hypotheses mirroring uuid uniqueness.
-/

namespace AgentBridge

/-- Timestamps: `time.time()` floating-point seconds, embedded as rationals. -/
abbrev Time := ℚ

/-- Lexicographic comparison of character lists by code point.  This is the
comparison Python uses on `str` (`sorted([a, b])` in `find_or_create_dm`). -/
def lexLe : List Char → List Char → Bool
  | [], _ => true
  | _ :: _, [] => false
  | c :: cs, d :: ds =>
      if c.toNat < d.toNat then true
      else if d.toNat < c.toNat then false
      else lexLe cs ds

/-- Python string `<=`: code-point lexicographic order on the characters. -/
def strLe (a b : String) : Bool := lexLe a.data b.data

theorem lexLe_total (x y : List Char) : lexLe x y = true ∨ lexLe y x = true := by
  induction x generalizing y with
  | nil => left; rfl
  | cons c cs ih =>
    cases y with
    | nil => right; rfl
    | cons d ds =>
      by_cases h1 : c.toNat < d.toNat
      · left; simp [lexLe, h1]
      · by_cases h2 : d.toNat < c.toNat
        · right; simp [lexLe, h2, h1]
        · rcases ih ds with h | h
          · left; simp [lexLe, h1, h2, h]
          · right; simp [lexLe, h1, h2, h]

theorem lexLe_antisymm {x y : List Char} (hxy : lexLe x y = true)
    (hyx : lexLe y x = true) : x = y := by
  induction x generalizing y with
  | nil =>
    cases y with
    | nil => rfl
    | cons d ds => simp [lexLe] at hyx
  | cons c cs ih =>
    cases y with
    | nil => simp [lexLe] at hxy
    | cons d ds =>
      by_cases h1 : c.toNat < d.toNat
      · exfalso
        have : ¬ d.toNat < c.toNat := by omega
        simp [lexLe, h1, this] at hyx
      · by_cases h2 : d.toNat < c.toNat
        · simp [lexLe, h1, h2] at hxy
        · have h1' : ¬ c.val.toNat < d.val.toNat := h1
          have h2' : ¬ d.val.toNat < c.val.toNat := h2
          have hc : c = d := Char.ext (UInt32.ext (by omega))
          subst hc
          simp only [lexLe, h1, if_neg h1] at hxy hyx
          exact congrArg (c :: ·) (ih hxy hyx)

theorem strLe_total (a b : String) : strLe a b = true ∨ strLe b a = true :=
  lexLe_total a.data b.data

theorem strLe_antisymm {a b : String} (hab : strLe a b = true)
    (hba : strLe b a = true) : a = b := by
  cases a; cases b
  exact congrArg String.mk (lexLe_antisymm hab hba)

/-- HTTP-level outcomes of a handler.  `integrityError` stands for an uncaught
`sqlite3.IntegrityError` escaping the handler (surfaced by the framework as a
500 response). -/
inductive HErr where
  | notFound : String → HErr
  | badRequest : String → HErr
  | forbidden : String → HErr
  | conflict : String → HErr
  | payloadTooLarge : String → HErr
  | integrityError : HErr
deriving Repr, DecidableEq

/-! ## Identity: api_keys and pending_registrations (`/join`) -/

/-- A row of the `api_keys` table. -/
structure ApiKey where
  key : String
  agent_id : String
  created_at : Time
deriving Repr, DecidableEq

/-- A row of the `pending_registrations` table.  Note the schema declares
`agent_name TEXT NOT NULL UNIQUE` (init_db). -/
structure PendingReg where
  id : String
  agent_name : String
  description : String
  contact : String
  status : String
  created_at : Time
  reviewed_at : Option Time
  reviewed_by : Option String
deriving Repr, DecidableEq

/-- The registration-related slice of the database. -/
structure RegStore where
  api_keys : List ApiKey
  pending : List PendingReg
deriving Repr, DecidableEq

/-- `POST /join` (`request_to_join` in main.py).  The handler refuses a name
that is already a registered agent (409), then a name that already has a
`status = 'pending'` registration (409); otherwise it INSERTs a fresh
pending row.  Because `pending_registrations.agent_name` carries a UNIQUE
constraint, the INSERT raises `sqlite3.IntegrityError` whenever any row —
including a rejected one — already holds the name; the embedding returns
`HErr.integrityError` in that case. -/
def request_to_join (s : RegStore) (agent_name description contact : String)
    (reg_id : String) (now : Time) : Except HErr String × RegStore :=
  if s.api_keys.any (fun k => k.agent_id = agent_name) then
    (Except.error (HErr.conflict (agent_name ++ " is already a registered agent")), s)
  else if s.pending.any (fun p => p.agent_name = agent_name && p.status = "pending") then
    (Except.error (HErr.conflict (agent_name ++ " already has a pending request")), s)
  else if s.pending.any (fun p => p.agent_name = agent_name) then
    (Except.error HErr.integrityError, s)
  else
    (Except.ok reg_id,
      { s with pending :=
          ⟨reg_id, agent_name, description, contact, "pending", now, none, none⟩ :: s.pending })

/-- A store holding a single rejected registration for "alice" and no key. -/
def rejectedAliceStore : RegStore :=
  { api_keys := []
    pending := [⟨"r1", "alice", "", "", "rejected", 1, some 2, some "bob"⟩] }

/-- C1: the spec says a rejected agent name with no `api_keys` row can be
re-requested via `POST /join` and a fresh pending registration is created.
Evaluating the handler at such a state shows the opposite: the two duplicate
guards pass (only `status = 'pending'` rows block, and no api key exists), but
the INSERT trips the UNIQUE constraint on `pending_registrations.agent_name`,
so the request fails with an IntegrityError and the store is unchanged. -/
theorem join_rejected_name_hits_unique_constraint :
    (∃ p ∈ rejectedAliceStore.pending, p.agent_name = "alice" ∧ p.status = "rejected") ∧
    (∀ k ∈ rejectedAliceStore.api_keys, k.agent_id ≠ "alice") ∧
    request_to_join rejectedAliceStore "alice" "" "" "r2" 3 =
      (Except.error HErr.integrityError, rejectedAliceStore) := by
  refine ⟨⟨⟨"r1", "alice", "", "", "rejected", 1, some 2, some "bob"⟩, by simp [rejectedAliceStore], rfl, rfl⟩, ?_, ?_⟩
  · intro k hk
    simp [rejectedAliceStore] at hk
  · rfl

/-! ## Messaging: conversations, members, messages (`/conversations`, `/send`, `/inbox`) -/

/-- A row of the `conversations` table. -/
structure Conversation where
  id : String
  name : String
  type : String
  created_by : Option String
  created_at : Time
deriving Repr, DecidableEq

/-- A row of the `conversation_members` table (PRIMARY KEY (conversation_id, agent_id)). -/
structure ConvMember where
  conversation_id : String
  agent_id : String
  joined_at : Time
deriving Repr, DecidableEq

/-- A row of the `messages` table.  `conversation_id` is nullable in the
schema (legacy rows); every handler modelled here sets it. -/
structure Message where
  id : String
  conversation_id : Option String
  from_agent : String
  to_agent : Option String
  content : String
  timestamp : Time
  read : Nat
deriving Repr, DecidableEq

/-- A row of the `files` table (the columns the modelled handlers touch;
`mime_type` and `sha256` are computed by Python stdlib calls and play no
role in any claim, so they are omitted). -/
structure FileRow where
  id : String
  filename : String
  original_name : String
  size : Nat
  uploaded_by : String
  uploaded_at : Time
  conversation_id : Option String
  message_id : Option String
deriving Repr, DecidableEq

/-- The messaging slice of the database. -/
structure ConvStore where
  conversations : List Conversation
  members : List ConvMember
  messages : List Message
  files : List FileRow
deriving Repr, DecidableEq

def emptyConvStore : ConvStore := ⟨[], [], [], []⟩

/-- Number of `conversation_members` rows of a conversation. -/
def countIn (ms : List ConvMember) (cid : String) : Nat :=
  (ms.filter (fun m => m.conversation_id = cid)).length

/-- `SELECT 1 FROM conversation_members WHERE conversation_id = ? AND agent_id = ?`. -/
def memIn (ms : List ConvMember) (cid agent : String) : Bool :=
  ms.any (fun m => m.conversation_id = cid && m.agent_id = agent)

def memberCount (s : ConvStore) (cid : String) : Nat := countIn s.members cid

def isMember (s : ConvStore) (cid agent : String) : Bool := memIn s.members cid agent

/-- `INSERT OR IGNORE INTO conversation_members`: a no-op when a row with the
same primary key (conversation_id, agent_id) already exists. -/
def insertMemberIgnore (ms : List ConvMember) (cid agent : String) (now : Time) :
    List ConvMember :=
  if memIn ms cid agent then ms else ⟨cid, agent, now⟩ :: ms

/-- `POST /conversations` (`create_conversation`): inserts a `'group'`
conversation, a membership row for the creator, and an OR-IGNORE membership
row for each requested member other than the creator. -/
def create_conversation (s : ConvStore) (agent_id req_name : String)
    (req_members : List String) (cid : String) (now : Time) : ConvStore :=
  { s with
    conversations := ⟨cid, req_name, "group", some agent_id, now⟩ :: s.conversations
    members :=
      (req_members.filter (fun m => m ≠ agent_id)).foldl
        (fun acc m => insertMemberIgnore acc cid m now)
        (⟨cid, agent_id, now⟩ :: s.members) }

/-- `sorted([agent_a, agent_b])` on Python strings. -/
def sortPair (a b : String) : String × String :=
  if strLe a b then (a, b) else (b, a)

/-- `find_or_create_dm`: sorts the two names (Python `sorted`), looks for an
existing `'dm'` conversation having both as members, and otherwise inserts a
fresh dm conversation with the two (OR-IGNORE) membership rows.  Returns the
conversation id together with the updated store. -/
def find_or_create_dm (s : ConvStore) (agent_a agent_b : String)
    (cid : String) (now : Time) : String × ConvStore :=
  match s.conversations.find?
      (fun c => c.type = "dm" && memIn s.members c.id (sortPair agent_a agent_b).1 &&
        memIn s.members c.id (sortPair agent_a agent_b).2) with
  | some c => (c.id, s)
  | none =>
      (cid,
        { s with
          conversations :=
            ⟨cid, (sortPair agent_a agent_b).1 ++ " ↔ " ++ (sortPair agent_a agent_b).2,
              "dm", some agent_a, now⟩ :: s.conversations
          members :=
            insertMemberIgnore
              (insertMemberIgnore s.members cid (sortPair agent_a agent_b).1 now)
              cid (sortPair agent_a agent_b).2 now })

/-- `POST /send` (`send_dm`): resolve (or create) the DM conversation for the
pair and append a message carrying the legacy `to_agent` column. -/
def send_dm (s : ConvStore) (agent_id msg_to content mid cid : String) (now : Time) :
    ConvStore :=
  let r := find_or_create_dm s agent_id msg_to cid now
  { r.2 with
    messages := ⟨mid, some r.1, agent_id, some msg_to, content, now, 0⟩ :: r.2.messages }

/-- `POST /conversations/{conv_id}/send` (`send_to_conv`): 404 when the
conversation does not exist, 403 when the caller is not a member, otherwise
append the message. -/
def send_to_conv (s : ConvStore) (conv_id agent_id content mid : String)
    (now : Time) : Except HErr String × ConvStore :=
  if !(s.conversations.any (fun c => c.id = conv_id)) then
    (Except.error (HErr.notFound "Not found"), s)
  else if !(isMember s conv_id agent_id) then
    (Except.error (HErr.forbidden "Not a member"), s)
  else
    (Except.ok mid,
      { s with
        messages := ⟨mid, some conv_id, agent_id, none, content, now, 0⟩ :: s.messages })

/-- `POST /conversations/{conv_id}/invite` (`invite_agent`): 404 when absent,
400 for DM conversations, 403 when the caller is not a member, otherwise
OR-IGNORE insert of the invited agent. -/
def invite_agent (s : ConvStore) (conv_id agent_id target : String) (now : Time) :
    Except HErr Unit × ConvStore :=
  match s.conversations.find? (fun c => c.id = conv_id) with
  | none => (Except.error (HErr.notFound "Not found"), s)
  | some conv =>
      if conv.type = "dm" then
        (Except.error (HErr.badRequest "Cannot invite to DM"), s)
      else if !(isMember s conv_id agent_id) then
        (Except.error (HErr.forbidden "Not a member"), s)
      else
        (Except.ok (), { s with members := insertMemberIgnore s.members conv_id target now })

/-- `POST /conversations/{conv_id}/leave` (`leave_conv`): unconditionally
DELETE the caller's membership row (no existence or type check). -/
def leave_conv (s : ConvStore) (conv_id agent_id : String) : ConvStore :=
  { s with
    members :=
      s.members.filter (fun m => !(m.conversation_id = conv_id && m.agent_id = agent_id)) }

def MAX_FILE_SIZE : Nat := 50 * 1024 * 1024

/-- UTF-8 byte length of a string (`len(content.encode())`). -/
def utf8Len (s : String) : Nat := s.data.foldl (fun n c => n + c.utf8Size) 0

/-- The decorated message body of a `/send-file` message. -/
def fileMsgContent (content original_name fid : String) (size : Nat) : String :=
  (if content = "" then "📎 " ++ original_name else content) ++
    "\n\n📁 File: " ++ original_name ++ " (" ++ toString size ++ " bytes)\n🔗 /files/" ++
    fid ++ "/" ++ original_name

/-- `POST /send-file` (`send_dm_with_file`): size checks, DM resolution, file
row, decorated message, and the file-to-message back link.  (The sha256 /
mime-type metadata is stdlib-computed and omitted, as in `FileRow`.) -/
def send_dm_with_file (s : ConvStore) (agent_id msg_to content original_name file_content : String)
    (mid cid fid : String) (now : Time) : Except HErr String × ConvStore :=
  let size := utf8Len file_content
  if size > MAX_FILE_SIZE then
    (Except.error (HErr.payloadTooLarge "File too large. Max: 50MB"), s)
  else if size = 0 then
    (Except.error (HErr.badRequest "Empty file"), s)
  else
    let r := find_or_create_dm s agent_id msg_to cid now
    (Except.ok mid,
      { r.2 with
        files := ⟨fid, fid, original_name, size, agent_id, now, some r.1, some mid⟩ :: r.2.files
        messages :=
          ⟨mid, some r.1, agent_id, some msg_to,
            fileMsgContent content original_name fid size, now, 0⟩ :: r.2.messages })

/-- One public mutating operation on the messaging state.  Fresh-uuid
hypotheses accompany the operations that generate a conversation id. -/
inductive ConvStep : ConvStore → ConvStore → Prop where
  | create (s : ConvStore) (agent_id req_name : String) (req_members : List String)
      (cid : String) (now : Time) (hfresh : ∀ c ∈ s.conversations, c.id ≠ cid) :
      ConvStep s (create_conversation s agent_id req_name req_members cid now)
  | dm (s : ConvStore) (agent_id msg_to content mid cid : String) (now : Time)
      (hfresh : ∀ c ∈ s.conversations, c.id ≠ cid) :
      ConvStep s (send_dm s agent_id msg_to content mid cid now)
  | toConv (s : ConvStore) (conv_id agent_id content mid : String) (now : Time) :
      ConvStep s (send_to_conv s conv_id agent_id content mid now).2
  | invite (s : ConvStore) (conv_id agent_id target : String) (now : Time) :
      ConvStep s (invite_agent s conv_id agent_id target now).2
  | leave (s : ConvStore) (conv_id agent_id : String) :
      ConvStep s (leave_conv s conv_id agent_id)
  | dmFile (s : ConvStore) (agent_id msg_to content original_name file_content mid cid fid : String)
      (now : Time) (hfresh : ∀ c ∈ s.conversations, c.id ≠ cid) :
      ConvStep s (send_dm_with_file s agent_id msg_to content original_name file_content mid cid fid now).2

/-- States reachable from the empty store by the public messaging operations. -/
inductive ConvReach : ConvStore → Prop where
  | empty : ConvReach emptyConvStore
  | step {s s' : ConvStore} : ConvReach s → ConvStep s s' → ConvReach s'

/-! ### Basic facts about membership rows -/

theorem memIn_iff {ms : List ConvMember} {cid ag : String} :
    memIn ms cid ag = true ↔ ∃ m ∈ ms, m.conversation_id = cid ∧ m.agent_id = ag := by
  simp [memIn, List.any_eq_true, Bool.and_eq_true, decide_eq_true_eq]

theorem countIn_cons (x : ConvMember) (ms : List ConvMember) (cid : String) :
    countIn (x :: ms) cid =
      (if x.conversation_id = cid then 1 else 0) + countIn ms cid := by
  simp only [countIn, List.filter_cons]
  split
  · rename_i h
    rw [if_pos (by simpa using h)]
    simp [Nat.add_comm]
  · rename_i h
    rw [if_neg (by simpa using h)]
    simp

theorem countIn_eq_zero {ms : List ConvMember} {cid : String}
    (h : ∀ m ∈ ms, m.conversation_id ≠ cid) : countIn ms cid = 0 := by
  simp only [countIn, List.length_eq_zero, List.filter_eq_nil_iff]
  intro m hm
  simpa using h m hm

theorem insertMemberIgnore_eq_or (ms : List ConvMember) (cid ag : String) (n : Time) :
    insertMemberIgnore ms cid ag n = ms ∨
      insertMemberIgnore ms cid ag n = ⟨cid, ag, n⟩ :: ms := by
  unfold insertMemberIgnore
  split
  · exact Or.inl rfl
  · exact Or.inr rfl

theorem countIn_insertMemberIgnore_ne {ms : List ConvMember} {cid ag : String} {n : Time}
    {cid' : String} (h : cid' ≠ cid) :
    countIn (insertMemberIgnore ms cid ag n) cid' = countIn ms cid' := by
  rcases insertMemberIgnore_eq_or ms cid ag n with he | he <;> rw [he]
  rw [countIn_cons]
  simp [Ne.symm h]

theorem countIn_insertMemberIgnore_le (ms : List ConvMember) (cid ag : String) (n : Time)
    (cid' : String) :
    countIn (insertMemberIgnore ms cid ag n) cid' ≤ countIn ms cid' + 1 := by
  rcases insertMemberIgnore_eq_or ms cid ag n with he | he <;> rw [he]
  · omega
  · rw [countIn_cons]
    split <;> omega

theorem memIn_insertMemberIgnore_self (ms : List ConvMember) (cid ag : String) (n : Time) :
    memIn (insertMemberIgnore ms cid ag n) cid ag = true := by
  unfold insertMemberIgnore
  split
  · assumption
  · exact memIn_iff.mpr ⟨⟨cid, ag, n⟩, List.mem_cons_self _ _, rfl, rfl⟩

theorem memIn_insertMemberIgnore_mono {ms : List ConvMember} {cid' ag' : String}
    (cid ag : String) (n : Time) (h : memIn ms cid' ag' = true) :
    memIn (insertMemberIgnore ms cid ag n) cid' ag' = true := by
  rcases insertMemberIgnore_eq_or ms cid ag n with he | he <;> rw [he]
  · exact h
  · obtain ⟨m, hm, h1, h2⟩ := memIn_iff.mp h
    exact memIn_iff.mpr ⟨m, List.mem_cons_of_mem _ hm, h1, h2⟩

theorem memIn_insertMemberIgnore_elim {ms : List ConvMember} {cid ag cid' ag' : String}
    {n : Time} (h : memIn (insertMemberIgnore ms cid ag n) cid' ag' = true) :
    memIn ms cid' ag' = true ∨ (cid' = cid ∧ ag' = ag) := by
  rcases insertMemberIgnore_eq_or ms cid ag n with he | he <;> rw [he] at h
  · exact Or.inl h
  · obtain ⟨m, hm, h1, h2⟩ := memIn_iff.mp h
    rcases List.mem_cons.mp hm with rfl | hm'
    · exact Or.inr ⟨h1.symm, h2.symm⟩
    · exact Or.inl (memIn_iff.mpr ⟨m, hm', h1, h2⟩)

theorem memIn_insertMemberIgnore_ne {ms : List ConvMember} {cid ag : String} {n : Time}
    {cid' ag' : String} (h : cid' ≠ cid) :
    memIn (insertMemberIgnore ms cid ag n) cid' ag' = memIn ms cid' ag' := by
  rcases insertMemberIgnore_eq_or ms cid ag n with he | he <;> rw [he]
  simp only [memIn, List.any_cons]
  have : (decide ((⟨cid, ag, n⟩ : ConvMember).conversation_id = cid') &&
      decide ((⟨cid, ag, n⟩ : ConvMember).agent_id = ag')) = false := by
    simp [Ne.symm h]
  rw [this, Bool.false_or]

theorem memIn_of_sublist {ms ms' : List ConvMember} {cid ag : String}
    (hsub : ms'.Sublist ms) (h : memIn ms' cid ag = true) : memIn ms cid ag = true := by
  obtain ⟨m, hm, h1, h2⟩ := memIn_iff.mp h
  exact memIn_iff.mpr ⟨m, hsub.mem hm, h1, h2⟩

/-- Pointwise-implied filters are sublists. -/
theorem filter_sublist_filter_of_imp {α : Type} {p q : α → Bool} :
    ∀ (l : List α), (∀ a ∈ l, p a = true → q a = true) →
      (l.filter p).Sublist (l.filter q)
  | [], _ => List.Sublist.refl _
  | x :: xs, h => by
    simp only [List.filter_cons]
    by_cases hp : p x = true
    · rw [if_pos hp, if_pos (h x (List.mem_cons_self _ _) hp)]
      exact List.Sublist.cons₂ x
        (filter_sublist_filter_of_imp xs (fun a ha => h a (List.mem_cons_of_mem _ ha)))
    · rw [if_neg hp]
      refine List.Sublist.trans
        (filter_sublist_filter_of_imp xs (fun a ha => h a (List.mem_cons_of_mem _ ha))) ?_
      split
      · exact List.sublist_cons_self _ _
      · exact List.Sublist.refl _

/-! ### The membership-count invariant -/

/-- Number of `'dm'` conversations having both `A` and `B` among their members. -/
def dmBothCount (s : ConvStore) (A B : String) : Nat :=
  (s.conversations.filter
    (fun c => c.type = "dm" && memIn s.members c.id A && memIn s.members c.id B)).length

/-- Inductive invariant of the messaging state:
conversation ids are unique (uuid4); every membership row points at an
existing conversation; dm conversations never have more than two membership
rows; and no two distinct agents share more than one dm conversation. -/
def ConvInv (s : ConvStore) : Prop :=
  (s.conversations.map (fun c => c.id)).Nodup ∧
  (∀ m ∈ s.members, ∃ c ∈ s.conversations, c.id = m.conversation_id) ∧
  (∀ c ∈ s.conversations, c.type = "dm" → memberCount s c.id ≤ 2) ∧
  (∀ A B : String, A ≠ B → dmBothCount s A B ≤ 1)

theorem convInv_empty : ConvInv emptyConvStore := by
  refine ⟨List.nodup_nil, ?_, ?_, ?_⟩
  · intro m hm; cases hm
  · intro c hc; cases hc
  · intro A B _; simp [dmBothCount, emptyConvStore]

/-- The invariant only reads the `conversations` and `members` fields. -/
theorem convInv_of_fields {s s' : ConvStore}
    (hc : s'.conversations = s.conversations) (hm : s'.members = s.members)
    (h : ConvInv s) : ConvInv s' := by
  unfold ConvInv memberCount dmBothCount at *
  rw [hc, hm]
  exact h

theorem memIn_cons_ne {x : ConvMember} {ms : List ConvMember} {cid' ag' : String}
    (h : x.conversation_id ≠ cid') :
    memIn (x :: ms) cid' ag' = memIn ms cid' ag' := by
  simp only [memIn, List.any_cons]
  have : (decide (x.conversation_id = cid') && decide (x.agent_id = ag')) = false := by
    simp [h]
  rw [this, Bool.false_or]

theorem conv_eq_of_id_eq {convs : List Conversation}
    (hnd : (convs.map (fun c => c.id)).Nodup) {c₁ c₂ : Conversation}
    (h₁ : c₁ ∈ convs) (h₂ : c₂ ∈ convs) (h : c₁.id = c₂.id) : c₁ = c₂ :=
  List.inj_on_of_nodup_map hnd h₁ h₂ h

theorem foldl_insert_mem (cid : String) (now : Time) :
    ∀ (mlist : List String) (acc : List ConvMember) (m : ConvMember),
      m ∈ mlist.foldl (fun a ag => insertMemberIgnore a cid ag now) acc →
        m ∈ acc ∨ m.conversation_id = cid
  | [], _, _, hm => Or.inl hm
  | ag :: rest, acc, m, hm => by
    rcases foldl_insert_mem cid now rest _ m hm with hin | hcid
    · replace hin : m ∈ insertMemberIgnore acc cid ag now := hin
      rcases insertMemberIgnore_eq_or acc cid ag now with he | he <;> rw [he] at hin
      · exact Or.inl hin
      · rcases List.mem_cons.mp hin with rfl | hin'
        · exact Or.inr rfl
        · exact Or.inl hin'
    · exact Or.inr hcid

theorem foldl_insert_countIn_ne (cid : String) (now : Time) {cid' : String} (h : cid' ≠ cid) :
    ∀ (mlist : List String) (acc : List ConvMember),
      countIn (mlist.foldl (fun a ag => insertMemberIgnore a cid ag now) acc) cid' =
        countIn acc cid'
  | [], _ => rfl
  | ag :: rest, acc => by
    rw [List.foldl_cons, foldl_insert_countIn_ne cid now h rest _,
      countIn_insertMemberIgnore_ne h]

theorem foldl_insert_memIn_ne (cid : String) (now : Time) {cid' ag' : String}
    (h : cid' ≠ cid) :
    ∀ (mlist : List String) (acc : List ConvMember),
      memIn (mlist.foldl (fun a ag => insertMemberIgnore a cid ag now) acc) cid' ag' =
        memIn acc cid' ag'
  | [], _ => rfl
  | ag :: rest, acc => by
    rw [List.foldl_cons, foldl_insert_memIn_ne cid now h rest _,
      memIn_insertMemberIgnore_ne h]

theorem convInv_find_or_create_dm (s : ConvStore) (a b cid : String) (now : Time)
    (hfresh : ∀ c ∈ s.conversations, c.id ≠ cid) (h : ConvInv s) :
    ConvInv (find_or_create_dm s a b cid now).2 := by
  obtain ⟨hnd, href, hcnt, hdm⟩ := h
  set a' := (sortPair a b).1 with ha'
  set b' := (sortPair a b).2 with hb'
  unfold find_or_create_dm
  rw [← ha', ← hb']
  cases hfind : s.conversations.find?
      (fun c => c.type = "dm" && memIn s.members c.id a' && memIn s.members c.id b') with
  | some c => exact ⟨hnd, href, hcnt, hdm⟩
  | none =>
    simp only
    have hnone := List.find?_eq_none.mp hfind
    -- no membership row mentions the fresh conversation id
    have hnomem : ∀ m ∈ s.members, m.conversation_id ≠ cid := by
      intro m hm
      obtain ⟨c, hc, hcid⟩ := href m hm
      rw [← hcid]
      exact hfresh c hc
    have hmemfalse : ∀ X, memIn s.members cid X = false := by
      intro X
      rw [Bool.eq_false_iff]
      intro hX
      obtain ⟨m, hm, h1, _⟩ := memIn_iff.mp hX
      exact hnomem m hm h1
    set ms₂ := insertMemberIgnore (insertMemberIgnore s.members cid a' now) cid b' now
      with hms₂
    have hms₂_cnt_ne : ∀ cid' : String, cid' ≠ cid →
        countIn ms₂ cid' = countIn s.members cid' := by
      intro cid' hne
      rw [hms₂, countIn_insertMemberIgnore_ne hne, countIn_insertMemberIgnore_ne hne]
    have hms₂_mem_ne : ∀ (cid' X : String), cid' ≠ cid →
        memIn ms₂ cid' X = memIn s.members cid' X := by
      intro cid' X hne
      rw [hms₂, memIn_insertMemberIgnore_ne hne, memIn_insertMemberIgnore_ne hne]
    have hms₂_cnt : countIn ms₂ cid ≤ 2 := by
      have h0 : countIn s.members cid = 0 := countIn_eq_zero hnomem
      calc countIn ms₂ cid
          ≤ countIn (insertMemberIgnore s.members cid a' now) cid + 1 :=
            countIn_insertMemberIgnore_le _ _ _ _ _
        _ ≤ countIn s.members cid + 1 + 1 := by
            have := countIn_insertMemberIgnore_le s.members cid a' now cid
            omega
        _ ≤ 2 := by omega
    have hms₂_elim : ∀ X, memIn ms₂ cid X = true → X = a' ∨ X = b' := by
      intro X hX
      rcases memIn_insertMemberIgnore_elim hX with hX' | ⟨_, rfl⟩
      · rcases memIn_insertMemberIgnore_elim hX' with hX'' | ⟨_, rfl⟩
        · rw [hmemfalse X] at hX''
          cases hX''
        · exact Or.inl rfl
      · exact Or.inr rfl
    have hms₂_a' : memIn ms₂ cid a' = true :=
      memIn_insertMemberIgnore_mono _ _ _
        (memIn_insertMemberIgnore_self s.members cid a' now)
    have hms₂_b' : memIn ms₂ cid b' = true :=
      memIn_insertMemberIgnore_self _ cid b' now
    refine ⟨?_, ?_, ?_, ?_⟩
    · rw [List.map_cons]
      exact List.nodup_cons.mpr
        ⟨by
          simp only [List.mem_map, not_exists]
          rintro c ⟨hc, hcid⟩
          exact hfresh c hc hcid, hnd⟩
    · intro m hm
      have hstep : m ∈ s.members ∨ m.conversation_id = cid := by
        rw [hms₂] at hm
        rcases insertMemberIgnore_eq_or (insertMemberIgnore s.members cid a' now) cid b' now
            with he | he <;> rw [he] at hm
        · rcases insertMemberIgnore_eq_or s.members cid a' now with he2 | he2 <;>
            rw [he2] at hm
          · exact Or.inl hm
          · rcases List.mem_cons.mp hm with rfl | hm'
            · exact Or.inr rfl
            · exact Or.inl hm'
        · rcases List.mem_cons.mp hm with rfl | hm'
          · exact Or.inr rfl
          · rcases insertMemberIgnore_eq_or s.members cid a' now with he2 | he2 <;>
              rw [he2] at hm'
            · exact Or.inl hm'
            · rcases List.mem_cons.mp hm' with rfl | hm''
              · exact Or.inr rfl
              · exact Or.inl hm''
      rcases hstep with hin | hcid
      · obtain ⟨c, hc, hcid⟩ := href _ hin
        exact ⟨c, List.mem_cons_of_mem _ hc, hcid⟩
      · exact ⟨_, List.mem_cons_self _ _, hcid.symm⟩
    · intro c hc hdmty
      rcases List.mem_cons.mp hc with rfl | hc'
      · simpa [memberCount] using hms₂_cnt
      · have hne : c.id ≠ cid := hfresh c hc'
        show countIn ms₂ c.id ≤ 2
        rw [hms₂_cnt_ne c.id hne]
        exact hcnt c hc' hdmty
    · intro A B hAB
      unfold dmBothCount
      simp only [List.filter_cons]
      have hold :
          (s.conversations.filter
            (fun c => c.type = "dm" && memIn ms₂ c.id A && memIn ms₂ c.id B)) =
          (s.conversations.filter
            (fun c => c.type = "dm" && memIn s.members c.id A && memIn s.members c.id B)) := by
        refine List.filter_congr ?_
        intro c hc
        have hne : c.id ≠ cid := hfresh c hc
        rw [hms₂_mem_ne c.id A hne, hms₂_mem_ne c.id B hne]
      split
      · rename_i hpred
        -- the fresh dm conversation contains both A and B: they are a' and b'
        simp only [Bool.and_eq_true, decide_eq_true_eq] at hpred
        obtain ⟨⟨_, hA⟩, hB⟩ := hpred
        have hA' := hms₂_elim A hA
        have hB' := hms₂_elim B hB
        have hswap : (A = a' ∧ B = b') ∨ (A = b' ∧ B = a') := by
          rcases hA' with rfl | rfl <;> rcases hB' with rfl | rfl
          · exact absurd rfl hAB
          · exact Or.inl ⟨rfl, rfl⟩
          · exact Or.inr ⟨rfl, rfl⟩
          · exact absurd rfl hAB
        have hempty :
            (s.conversations.filter
              (fun c => c.type = "dm" && memIn s.members c.id A && memIn s.members c.id B)) = [] := by
          rw [List.filter_eq_nil_iff]
          intro c hc
          intro hcontra
          simp only [Bool.and_eq_true, decide_eq_true_eq] at hcontra
          obtain ⟨⟨hty, hcA⟩, hcB⟩ := hcontra
          refine hnone c hc ?_
          simp only [Bool.and_eq_true, decide_eq_true_eq]
          rcases hswap with ⟨rfl, rfl⟩ | ⟨rfl, rfl⟩
          · exact ⟨⟨hty, hcA⟩, hcB⟩
          · exact ⟨⟨hty, hcB⟩, hcA⟩
        rw [hold, hempty]
        simp
      · rw [hold]
        exact hdm A B hAB

theorem convInv_create_conversation (s : ConvStore) (agent_id req_name : String)
    (req_members : List String) (cid : String) (now : Time)
    (hfresh : ∀ c ∈ s.conversations, c.id ≠ cid) (h : ConvInv s) :
    ConvInv (create_conversation s agent_id req_name req_members cid now) := by
  obtain ⟨hnd, href, hcnt, hdm⟩ := h
  unfold create_conversation
  set base : List ConvMember := ⟨cid, agent_id, now⟩ :: s.members with hbase
  set final :=
    (req_members.filter (fun m => m ≠ agent_id)).foldl
      (fun acc m => insertMemberIgnore acc cid m now) base with hfinal
  have hcnt_ne : ∀ cid' : String, cid' ≠ cid → countIn final cid' = countIn s.members cid' := by
    intro cid' hne
    rw [hfinal, foldl_insert_countIn_ne cid now hne, hbase, countIn_cons]
    simp [Ne.symm hne]
  have hmem_ne : ∀ (cid' ag : String), cid' ≠ cid →
      memIn final cid' ag = memIn s.members cid' ag := by
    intro cid' ag hne
    rw [hfinal, foldl_insert_memIn_ne cid now hne, hbase, memIn_cons_ne (Ne.symm hne)]
  refine ⟨?_, ?_, ?_, ?_⟩
  · rw [List.map_cons]
    refine List.nodup_cons.mpr ⟨?_, hnd⟩
    simp only [List.mem_map, not_exists]
    rintro c ⟨hc, hcid⟩
    exact hfresh c hc hcid
  · intro m hm
    rcases foldl_insert_mem cid now _ base m hm with hin | hcid
    · rcases List.mem_cons.mp hin with rfl | hin'
      · exact ⟨_, List.mem_cons_self _ _, rfl⟩
      · obtain ⟨c, hc, hcid⟩ := href m hin'
        exact ⟨c, List.mem_cons_of_mem _ hc, hcid⟩
    · exact ⟨_, List.mem_cons_self _ _, hcid.symm⟩
  · intro c hc hdmty
    rcases List.mem_cons.mp hc with rfl | hc'
    · exact absurd (show ("group" : String) = "dm" from hdmty) (by decide)
    · show countIn final c.id ≤ 2
      rw [hcnt_ne c.id (hfresh c hc')]
      exact hcnt c hc' hdmty
  · intro A B hAB
    unfold dmBothCount
    simp only [List.filter_cons]
    rw [if_neg (by simp)]
    have := List.filter_congr (l := s.conversations)
      (p := fun c => c.type = "dm" && memIn final c.id A && memIn final c.id B)
      (q := fun c => c.type = "dm" && memIn s.members c.id A && memIn s.members c.id B)
      (fun c hc => by
        show (decide (c.type = "dm") && memIn final c.id A && memIn final c.id B) =
          (decide (c.type = "dm") && memIn s.members c.id A && memIn s.members c.id B)
        rw [hmem_ne c.id A (hfresh c hc), hmem_ne c.id B (hfresh c hc)])
    rw [this]
    exact hdm A B hAB

theorem convInv_invite_agent (s : ConvStore) (conv_id agent_id target : String)
    (now : Time) (h : ConvInv s) : ConvInv (invite_agent s conv_id agent_id target now).2 := by
  obtain ⟨hnd, href, hcnt, hdm⟩ := h
  unfold invite_agent
  cases hfind : s.conversations.find? (fun c => c.id = conv_id) with
  | none => exact ⟨hnd, href, hcnt, hdm⟩
  | some conv =>
    dsimp only
    have hconv_mem : conv ∈ s.conversations := List.mem_of_find?_eq_some hfind
    have hconv_id : conv.id = conv_id := by
      have := List.find?_some hfind
      simpa using this
    by_cases hty : conv.type = "dm"
    · rw [if_pos hty]
      exact ⟨hnd, href, hcnt, hdm⟩
    · rw [if_neg hty]
      by_cases hmem : isMember s conv_id agent_id = true
      · rw [if_neg (by simp [hmem])]
        -- any dm conversation has an id different from conv_id
        have hdmne : ∀ c ∈ s.conversations, c.type = "dm" → c.id ≠ conv_id := by
          intro c hc hcty hceq
          exact hty (by
            have : c = conv := conv_eq_of_id_eq hnd hc hconv_mem (hceq.trans hconv_id.symm)
            rw [← this]; exact hcty)
        refine ⟨hnd, ?_, ?_, ?_⟩
        · intro m hm
          rcases insertMemberIgnore_eq_or s.members conv_id target now with he | he <;>
            rw [he] at hm
          · exact href m hm
          · rcases List.mem_cons.mp hm with rfl | hm'
            · exact ⟨conv, hconv_mem, hconv_id⟩
            · exact href m hm'
        · intro c hc hcty
          show countIn (insertMemberIgnore s.members conv_id target now) c.id ≤ 2
          rw [countIn_insertMemberIgnore_ne (hdmne c hc hcty)]
          exact hcnt c hc hcty
        · intro A B hAB
          unfold dmBothCount
          have := List.filter_congr (l := s.conversations)
            (p := fun c => c.type = "dm" &&
              memIn (insertMemberIgnore s.members conv_id target now) c.id A &&
              memIn (insertMemberIgnore s.members conv_id target now) c.id B)
            (q := fun c => c.type = "dm" && memIn s.members c.id A && memIn s.members c.id B)
            (fun c hc => by
              show (decide (c.type = "dm") &&
                  memIn (insertMemberIgnore s.members conv_id target now) c.id A &&
                  memIn (insertMemberIgnore s.members conv_id target now) c.id B) =
                (decide (c.type = "dm") && memIn s.members c.id A && memIn s.members c.id B)
              by_cases hcty : c.type = "dm"
              · rw [memIn_insertMemberIgnore_ne (hdmne c hc hcty),
                  memIn_insertMemberIgnore_ne (hdmne c hc hcty)]
              · simp [hcty])
          rw [this]
          exact hdm A B hAB
      · have hmf : isMember s conv_id agent_id = false := Bool.eq_false_iff.mpr hmem
        rw [if_pos (by simp [hmf])]
        exact ⟨hnd, href, hcnt, hdm⟩

theorem convInv_leave_conv (s : ConvStore) (conv_id agent_id : String)
    (h : ConvInv s) : ConvInv (leave_conv s conv_id agent_id) := by
  obtain ⟨hnd, href, hcnt, hdm⟩ := h
  unfold leave_conv
  have hsub : (s.members.filter
      (fun m => !(m.conversation_id = conv_id && m.agent_id = agent_id))).Sublist s.members :=
    List.filter_sublist _
  refine ⟨hnd, ?_, ?_, ?_⟩
  · intro m hm
    exact href m (hsub.mem hm)
  · intro c hc hcty
    show countIn _ c.id ≤ 2
    calc countIn (s.members.filter
          (fun m => !(m.conversation_id = conv_id && m.agent_id = agent_id))) c.id
        ≤ countIn s.members c.id := (hsub.filter _).length_le
      _ ≤ 2 := hcnt c hc hcty
  · intro A B hAB
    unfold dmBothCount
    have hsubf := filter_sublist_filter_of_imp (l := s.conversations)
      (p := fun c => c.type = "dm" &&
        memIn (s.members.filter
          (fun m => !(m.conversation_id = conv_id && m.agent_id = agent_id))) c.id A &&
        memIn (s.members.filter
          (fun m => !(m.conversation_id = conv_id && m.agent_id = agent_id))) c.id B)
      (q := fun c => c.type = "dm" && memIn s.members c.id A && memIn s.members c.id B)
      ?_
    · calc _ ≤ _ := hsubf.length_le
        _ ≤ 1 := hdm A B hAB
    · intro c _ hp
      simp only [Bool.and_eq_true] at hp ⊢
      exact ⟨⟨hp.1.1, memIn_of_sublist hsub hp.1.2⟩, memIn_of_sublist hsub hp.2⟩

theorem convInv_step {s s' : ConvStore} (h : ConvInv s) (st : ConvStep s s') :
    ConvInv s' := by
  cases st with
  | create agent_id req_name req_members cid now hfresh =>
    exact convInv_create_conversation s agent_id req_name req_members cid now hfresh h
  | dm agent_id msg_to content mid cid now hfresh =>
    exact convInv_of_fields rfl rfl (convInv_find_or_create_dm s agent_id msg_to cid now hfresh h)
  | toConv conv_id agent_id content mid now =>
    unfold send_to_conv
    split
    · exact h
    · split
      · exact h
      · exact convInv_of_fields rfl rfl h
  | invite conv_id agent_id target now =>
    exact convInv_invite_agent s conv_id agent_id target now h
  | leave conv_id agent_id =>
    exact convInv_leave_conv s conv_id agent_id h
  | dmFile agent_id msg_to content original_name file_content mid cid fid now hfresh =>
    unfold send_dm_with_file
    dsimp only
    split
    · exact h
    · split
      · exact h
      · exact convInv_of_fields rfl rfl (convInv_find_or_create_dm s agent_id msg_to cid now hfresh h)

theorem convInv_of_reach {s : ConvStore} (h : ConvReach s) : ConvInv s := by
  induction h with
  | empty => exact convInv_empty
  | step _ st ih => exact convInv_step ih st

/-! ### Claims about membership counts and DM uniqueness -/

/-- The literal form of the DM/group membership-count claim: in every
reachable state a dm conversation has exactly two membership rows and a
group conversation at least one. -/
def ConvCountClaim : Prop :=
  ∀ s : ConvStore, ConvReach s → ∀ c ∈ s.conversations,
    (c.type = "dm" → memberCount s c.id = 2) ∧
    (c.type = "group" → 1 ≤ memberCount s c.id)

/-- A group conversation whose only member left: "alice" creates a group and
then leaves it. -/
def groupGone : ConvStore :=
  leave_conv (create_conversation emptyConvStore "alice" "room" [] "c1" 1) "c1" "alice"

/-- A dm conversation with a single member: "alice" DMs "bob" and then leaves
the dm conversation (leave_conv does not check the conversation type). -/
def dmGone : ConvStore :=
  leave_conv (send_dm emptyConvStore "alice" "bob" "hi" "m1" "c1" 1) "c1" "alice"

/-- C2, counterexample: the exact-count claim fails on reachable states.
`leave_conv` deletes the caller's membership row from any conversation with
no type or emptiness check, so a group conversation can reach zero members
("alice" creates a group and leaves), and a dm conversation can reach a
single member ("alice" DMs "bob" and leaves the dm). -/
theorem conv_membership_counts_refuted :
    ¬ ConvCountClaim ∧
    (ConvReach dmGone ∧ ∃ c ∈ dmGone.conversations, c.type = "dm" ∧ memberCount dmGone c.id = 1) := by
  have hreach_group : ConvReach groupGone := by
    refine ConvReach.step
      (ConvReach.step ConvReach.empty (ConvStep.create _ "alice" "room" [] "c1" 1 ?_))
      (ConvStep.leave _ "c1" "alice")
    intro c hc; cases hc
  have hreach_dm : ConvReach dmGone := by
    refine ConvReach.step
      (ConvReach.step ConvReach.empty (ConvStep.dm _ "alice" "bob" "hi" "m1" "c1" 1 ?_))
      (ConvStep.leave _ "c1" "alice")
    intro c hc; cases hc
  refine ⟨?_, hreach_dm, by decide⟩
  intro hclaim
  have hmem : (⟨"c1", "room", "group", some "alice", 1⟩ : Conversation) ∈
      groupGone.conversations := by decide
  have h1 := (hclaim groupGone hreach_group _ hmem).2 rfl
  have h0 : memberCount groupGone "c1" = 0 := by decide
  rw [h0] at h1
  omega

/-- C2 (amended): what the code actually maintains.  DM conversations never
exceed two membership rows (members are only added at dm creation, and
`invite_agent` refuses dm conversations); but the exact counts in the original
claim are not invariant, because `leave_conv` unconditionally removes the
caller's membership row from any conversation — a group can reach zero
members and a dm one member (see the counterexample). -/
theorem reachable_dm_member_count_le_two :
    ∀ s : ConvStore, ConvReach s → ∀ c ∈ s.conversations, c.type = "dm" →
      memberCount s c.id ≤ 2 := by
  intro s hs c hc hty
  exact (convInv_of_reach hs).2.2.1 c hc hty

/-- The state after "alice" DMs "bob" starting from the empty store. -/
def dmPair : ConvStore := send_dm emptyConvStore "alice" "bob" "hi" "m1" "c1" 1

theorem reachable_dm_member_count_le_two_witness :
    (⟨"c1", "alice ↔ bob", "dm", some "alice", 1⟩ : Conversation) ∈ dmPair.conversations ∧
    memberCount dmPair "c1" ≤ 2 := by
  have hreach : ConvReach dmPair := by
    refine ConvReach.step ConvReach.empty (ConvStep.dm _ "alice" "bob" "hi" "m1" "c1" 1 ?_)
    intro c hc; cases hc
  have hmem : (⟨"c1", "alice ↔ bob", "dm", some "alice", 1⟩ : Conversation) ∈
      dmPair.conversations := by decide
  exact ⟨hmem, reachable_dm_member_count_le_two dmPair hreach _ hmem (by decide)⟩

/-- A conversation's member set is exactly the (distinct) pair `A`, `B`. -/
def memberSetIsPair (s : ConvStore) (cid A B : String) : Bool :=
  (s.members.all (fun m => !(m.conversation_id = cid) || m.agent_id = A || m.agent_id = B)) &&
    memIn s.members cid A && memIn s.members cid B

theorem sortPair_comm (a b : String) : sortPair a b = sortPair b a := by
  unfold sortPair
  by_cases hab : strLe a b = true
  · by_cases hba : strLe b a = true
    · cases strLe_antisymm hab hba
      rfl
    · rw [if_pos hab, if_neg (by simp [hba])]
  · by_cases hba : strLe b a = true
    · rw [if_neg (by simp [hab]), if_pos hba]
    · rcases strLe_total a b with h | h
      · exact absurd h hab
      · exact absurd h hba

theorem find_or_create_dm_fst_comm (s : ConvStore) (a b cid : String) (now : Time) :
    (find_or_create_dm s a b cid now).1 = (find_or_create_dm s b a cid now).1 := by
  unfold find_or_create_dm
  rw [sortPair_comm a b]
  cases hf : s.conversations.find?
      (fun c => c.type = "dm" && memIn s.members c.id (sortPair b a).1 &&
        memIn s.members c.id (sortPair b a).2) <;> rfl

/-- C4: in every reachable state, any two distinct agents A and B have at most
one dm conversation whose member set is exactly the pair A, B; and `POST /send`
canonicalizes the pair by sorting the two names, so a send from A to B and a
send from B to A resolve to the same conversation id. -/
theorem dm_unique_per_pair_and_canonical :
    (∀ s : ConvStore, ConvReach s → ∀ A B : String, A ≠ B →
      (s.conversations.filter
        (fun c => c.type = "dm" && memberSetIsPair s c.id A B)).length ≤ 1) ∧
    (∀ (s : ConvStore) (a b cid : String) (now : Time),
      (find_or_create_dm s a b cid now).1 = (find_or_create_dm s b a cid now).1) := by
  constructor
  · intro s hs A B hAB
    have hinv := (convInv_of_reach hs).2.2.2 A B hAB
    unfold dmBothCount at hinv
    refine le_trans (List.Sublist.length_le ?_) hinv
    refine filter_sublist_filter_of_imp _ ?_
    intro c _ hp
    replace hp : (decide (c.type = "dm") && memberSetIsPair s c.id A B) = true := hp
    show (decide (c.type = "dm") && memIn s.members c.id A && memIn s.members c.id B) = true
    simp only [Bool.and_eq_true] at hp ⊢
    obtain ⟨hty, hset⟩ := hp
    simp only [memberSetIsPair, Bool.and_eq_true] at hset
    exact ⟨⟨hty, hset.1.2⟩, hset.2⟩
  · exact find_or_create_dm_fst_comm

theorem dm_unique_per_pair_and_canonical_witness :
    ("alice" : String) ≠ "bob" ∧
    (dmPair.conversations.filter
      (fun c => c.type = "dm" && memberSetIsPair dmPair c.id "alice" "bob")).length ≤ 1 ∧
    (find_or_create_dm emptyConvStore "bob" "alice" "x" 2).1 =
      (find_or_create_dm emptyConvStore "alice" "bob" "x" 2).1 := by
  have hreach : ConvReach dmPair := by
    refine ConvReach.step ConvReach.empty (ConvStep.dm _ "alice" "bob" "hi" "m1" "c1" 1 ?_)
    intro c hc; cases hc
  exact ⟨by decide,
    dm_unique_per_pair_and_canonical.1 dmPair hreach "alice" "bob" (by decide),
    dm_unique_per_pair_and_canonical.2 emptyConvStore "bob" "alice" "x" 2⟩

/-! ## Inbox and the public message dump -/

/-- `ORDER BY timestamp ASC` comparator. -/
def tsLe (m₁ m₂ : Message) : Bool := decide (m₁.timestamp ≤ m₂.timestamp)

theorem tsLe_trans : ∀ a b c : Message, tsLe a b = true → tsLe b c = true →
    tsLe a c = true := by
  intro a b c hab hbc
  simp only [tsLe, decide_eq_true_eq] at hab hbc ⊢
  exact le_trans hab hbc

theorem tsLe_total : ∀ a b : Message, (tsLe a b || tsLe b a) = true := by
  intro a b
  simp only [tsLe, Bool.or_eq_true, decide_eq_true_eq]
  exact le_total _ _

theorem sortTake_length_le (l : List Message) (limit : ℕ) :
    ((l.mergeSort tsLe).take limit).length ≤ limit := by
  simp

theorem sortTake_pairwise (l : List Message) (limit : ℕ) :
    ((l.mergeSort tsLe).take limit).Pairwise
      (fun a b => a.timestamp ≤ b.timestamp) := by
  have hs : (l.mergeSort tsLe).Pairwise (fun a b => tsLe a b = true) :=
    List.sorted_mergeSort tsLe_trans tsLe_total l
  have := List.Pairwise.sublist (List.take_sublist limit (l.mergeSort tsLe)) hs
  exact this.imp (fun h => by simpa [tsLe] using h)

theorem sortTake_subset {l : List Message} {limit : ℕ} {m : Message}
    (hm : m ∈ (l.mergeSort tsLe).take limit) : m ∈ l :=
  (l.mergeSort_perm tsLe).mem_iff.mp ((List.take_sublist _ _).mem hm)

theorem sortTake_oldest (l : List Message) (limit : ℕ) :
    ∀ m' ∈ l, m' ∉ (l.mergeSort tsLe).take limit →
      ∀ m ∈ (l.mergeSort tsLe).take limit, m.timestamp ≤ m'.timestamp := by
  intro m' hm' hnot m hm
  have hsorted : (l.mergeSort tsLe).Pairwise (fun a b => tsLe a b = true) :=
    List.sorted_mergeSort tsLe_trans tsLe_total l
  have hm'sort : m' ∈ l.mergeSort tsLe := (l.mergeSort_perm tsLe).mem_iff.mpr hm'
  have hdrop : m' ∈ (l.mergeSort tsLe).drop limit := by
    rcases List.mem_append.mp
        (by rw [List.take_append_drop limit (l.mergeSort tsLe)]; exact hm'sort) with h | h
    · exact absurd h hnot
    · exact h
  have hsplit := hsorted
  rw [← List.take_append_drop limit (l.mergeSort tsLe)] at hsplit
  have := (List.pairwise_append.mp hsplit).2.2 m hm m' hdrop
  simpa [tsLe] using this

theorem sortTake_full {l : List Message} {limit : ℕ} (h : l.length ≤ limit) :
    ((l.mergeSort tsLe).take limit).Perm l := by
  rw [List.take_of_length_le (by rw [(l.mergeSort_perm tsLe).length_eq]; exact h)]
  exact l.mergeSort_perm tsLe

/-- The WHERE clause of `GET /inbox` as executed: the caller must be a member
of the message's conversation, the author must differ from the caller, the
message must be unread, and — only when `since` is truthy in Python (present
and nonzero) — the timestamp filter applies. -/
def inboxPred (ms : List ConvMember) (caller : String) (since : Option Time)
    (m : Message) : Bool :=
  (ms.any (fun cm => m.conversation_id = some cm.conversation_id && cm.agent_id = caller)) &&
    !(m.from_agent = caller) && m.read = 0 &&
    (match since with
     | none => true
     | some sv => if sv = 0 then true else decide (sv < m.timestamp))

/-- The claim's description of the inbox filter: whenever `since` is given the
timestamp must be strictly larger than it. -/
def inboxClaimPred (ms : List ConvMember) (caller : String) (since : Option Time)
    (m : Message) : Bool :=
  (ms.any (fun cm => m.conversation_id = some cm.conversation_id && cm.agent_id = caller)) &&
    !(m.from_agent = caller) && m.read = 0 &&
    (match since with
     | none => true
     | some sv => decide (sv < m.timestamp))

theorem inboxPred_eq_claimPred {ms : List ConvMember} {caller : String}
    {since : Option Time} {m : Message} (hpos : 0 < m.timestamp) :
    inboxPred ms caller since m = inboxClaimPred ms caller since m := by
  unfold inboxPred inboxClaimPred
  cases since with
  | none => rfl
  | some sv =>
    dsimp only
    by_cases h0 : sv = 0
    · subst h0
      rw [if_pos rfl, decide_eq_true hpos]
    · rw [if_neg h0]

/-- `GET /inbox` (`get_inbox`): the join/filter, ascending order by timestamp,
and the LIMIT.  (The join over `conversation_members` matches at most one row
per message because of the table's primary key, so it is embedded as a
semijoin.) -/
def get_inbox (s : ConvStore) (caller : String) (since : Option Time)
    (limit : ℕ) : List Message :=
  ((s.messages.filter (inboxPred s.members caller since)).mergeSort tsLe).take limit

/-- C6: for a store whose message timestamps are positive (every stored
timestamp is a `time.time()` value), `GET /inbox` returns exactly the unread
messages of the caller's conversations authored by others and newer than
`since` when given — ascending by timestamp and capped at `limit`: the result
is always sound w.r.t. that description, and complete whenever the matching
set fits within the cap. -/
theorem inbox_spec (s : ConvStore) (caller : String) (since : Option Time)
    (limit : ℕ) (hpos : ∀ m ∈ s.messages, 0 < m.timestamp) :
    (get_inbox s caller since limit).length ≤ limit ∧
    (get_inbox s caller since limit).Pairwise (fun a b => a.timestamp ≤ b.timestamp) ∧
    (∀ m ∈ get_inbox s caller since limit,
      m ∈ s.messages ∧ inboxClaimPred s.members caller since m = true) ∧
    ((s.messages.filter (inboxClaimPred s.members caller since)).length ≤ limit →
      (get_inbox s caller since limit).Perm
        (s.messages.filter (inboxClaimPred s.members caller since))) := by
  have hfe : s.messages.filter (inboxPred s.members caller since) =
      s.messages.filter (inboxClaimPred s.members caller since) :=
    List.filter_congr (fun m hm => inboxPred_eq_claimPred (hpos m hm))
  unfold get_inbox
  rw [hfe]
  refine ⟨sortTake_length_le _ _, sortTake_pairwise _ _, ?_, fun hlen => sortTake_full hlen⟩
  intro m hm
  have := sortTake_subset hm
  exact ⟨(List.mem_filter.mp this).1, (List.mem_filter.mp this).2⟩

/-- A small concrete store: one dm plus one unread incoming message for
"alice" with timestamp 5. -/
def inboxDemo : ConvStore :=
  { conversations := [⟨"c1", "d", "dm", some "bob", 1⟩]
    members := [⟨"c1", "alice", 1⟩, ⟨"c1", "bob", 1⟩]
    messages := [⟨"m1", some "c1", "bob", some "alice", "hi", 5, 0⟩]
    files := [] }

theorem inbox_spec_witness :
    (∀ m ∈ inboxDemo.messages, 0 < m.timestamp) ∧
    (get_inbox inboxDemo "alice" (some 2) 50).length ≤ 50 ∧
    (∀ m ∈ get_inbox inboxDemo "alice" (some 2) 50,
      m ∈ inboxDemo.messages ∧ inboxClaimPred inboxDemo.members "alice" (some 2) m = true) := by
  have h := inbox_spec inboxDemo "alice" (some 2) 50 (by decide)
  exact ⟨by decide, h.1, h.2.2.1⟩

/-- `GET /messages/all` (`get_all_messages`): the full message table, ascending
by timestamp, LIMIT `limit` (default 500).  The route declares no dependency
on `get_agent_id`, so no API key is required — accordingly the embedding takes
no caller argument and consults no membership row. -/
def get_all_messages (s : ConvStore) (limit : ℕ) : List Message :=
  (s.messages.mergeSort tsLe).take limit

/-- C10: the unauthenticated `GET /messages/all` returns the oldest stored
messages in timestamp-ascending order, capped at `limit`: at most `limit`
rows, ascending, all drawn from the message table, every omitted message is
at least as new as every returned one, and when the table fits in the cap
every stored message (full content included — the rows are returned whole)
is in the result regardless of any conversation membership. -/
theorem messages_all_spec (s : ConvStore) (limit : ℕ) :
    (get_all_messages s limit).length ≤ limit ∧
    (get_all_messages s limit).Pairwise (fun a b => a.timestamp ≤ b.timestamp) ∧
    (∀ m ∈ get_all_messages s limit, m ∈ s.messages) ∧
    (∀ m' ∈ s.messages, m' ∉ get_all_messages s limit →
      ∀ m ∈ get_all_messages s limit, m.timestamp ≤ m'.timestamp) ∧
    (s.messages.length ≤ limit → ∀ m ∈ s.messages, m ∈ get_all_messages s limit) := by
  refine ⟨sortTake_length_le _ _, sortTake_pairwise _ _, fun m hm => sortTake_subset hm,
    sortTake_oldest _ _, fun hlen m hm => ?_⟩
  exact (sortTake_full hlen).mem_iff.mpr hm

theorem messages_all_spec_witness :
    (get_all_messages inboxDemo 2).length ≤ 2 ∧
    (∀ m ∈ inboxDemo.messages, m ∈ get_all_messages inboxDemo 2) := by
  have h := messages_all_spec inboxDemo 2
  exact ⟨h.1, h.2.2.2.2 (by decide)⟩

/-! ## Task board (`/tasks`) -/

/-- A row of the `tasks` table, plus one piece of ghost instrumentation:
`left_done` is not a database column — it records whether the task has ever
transitioned out of status `'done'`, which is exactly the carve-out in the
completed_at invariant ("except for tasks that transitioned away from done").
No handler reads it, so it does not alter behaviour. -/
structure Task where
  id : String
  title : String
  description : String
  status : String
  priority : String
  created_by : String
  assigned_to : Option String
  claimed_by : Option String
  tags : List String
  created_at : Time
  updated_at : Time
  completed_at : Option Time
  due_by : Option Time
  parent_id : Option String
  project_id : Option String
  milestone_id : Option String
  effort_estimate : Option String
  left_done : Bool
deriving Repr, DecidableEq

structure TaskStore where
  tasks : List Task
deriving Repr, DecidableEq

def emptyTaskStore : TaskStore := ⟨[]⟩

def validPriority (p : String) : Bool :=
  p = "low" || p = "normal" || p = "high" || p = "urgent"

def validStatus (st : String) : Bool :=
  st = "open" || st = "claimed" || st = "in_progress" || st = "done" ||
    st = "blocked" || st = "cancelled"

/-- `SELECT * FROM tasks WHERE id = ?`. -/
def findTask (s : TaskStore) (tid : String) : Option Task :=
  s.tasks.find? (fun t => t.id = tid)

/-- `UPDATE tasks SET ... WHERE id = ?`. -/
def updTasks (ts : List Task) (tid : String) (f : Task → Task) : List Task :=
  ts.map (fun t => if t.id = tid then f t else t)

/-- `POST /tasks` (`create_task`): priority validation, optional
parent-existence check, then the INSERT with status `'open'` and NULL
`completed_at`/`claimed_by`.  `due_by` arrives pre-parsed (ISO-8601 parsing is
Python stdlib); the `task_dependencies` / `task_history` side tables play no
role in the claims settled here and are omitted. -/
def create_task (s : TaskStore) (title description priority : String)
    (assigned_to : Option String) (tags : List String) (due_by : Option Time)
    (parent_id project_id milestone_id effort_estimate : Option String)
    (caller tid : String) (now : Time) : Except HErr Unit × TaskStore :=
  if !(validPriority priority) then
    (Except.error (HErr.badRequest "Priority must be: low, normal, high, urgent"), s)
  else if parent_id.any (fun p => !(s.tasks.any (fun t => t.id = p))) then
    (Except.error (HErr.notFound "Parent task not found"), s)
  else
    (Except.ok (),
      ⟨⟨tid, title, description, "open", priority, caller, assigned_to, none, tags,
        now, now, none, due_by, parent_id, project_id, milestone_id, effort_estimate,
        false⟩ :: s.tasks⟩)

/-- `POST /tasks/{task_id}/claim` (`claim_task`): legal only from `'open'`. -/
def claim_task (s : TaskStore) (tid caller : String) (now : Time) :
    Except HErr Unit × TaskStore :=
  match findTask s tid with
  | none => (Except.error (HErr.notFound "Task not found"), s)
  | some t =>
      if t.status ≠ "open" then
        (Except.error (HErr.badRequest ("Cannot claim task with status " ++ t.status)), s)
      else
        (Except.ok (),
          ⟨updTasks s.tasks tid (fun u =>
            { u with status := "claimed", claimed_by := some caller, updated_at := now })⟩)

/-- `POST /tasks/{task_id}/start` (`start_task`): legal from `'open'` or
`'claimed'`; `claimed_by = COALESCE(claimed_by, caller)`. -/
def start_task (s : TaskStore) (tid caller : String) (now : Time) :
    Except HErr Unit × TaskStore :=
  match findTask s tid with
  | none => (Except.error (HErr.notFound "Task not found"), s)
  | some t =>
      if !(t.status = "open" || t.status = "claimed") then
        (Except.error (HErr.badRequest ("Cannot start task with status " ++ t.status)), s)
      else
        (Except.ok (),
          ⟨updTasks s.tasks tid (fun u =>
            { u with status := "in_progress",
                     claimed_by := some (u.claimed_by.getD caller),
                     updated_at := now })⟩)

/-- `POST /tasks/{task_id}/complete` (`complete_task`): refused from the
terminal states, otherwise stamps `completed_at`. -/
def complete_task (s : TaskStore) (tid caller : String) (now : Time) :
    Except HErr Unit × TaskStore :=
  match findTask s tid with
  | none => (Except.error (HErr.notFound "Task not found"), s)
  | some t =>
      if t.status = "done" || t.status = "cancelled" then
        (Except.error (HErr.badRequest ("Task already " ++ t.status)), s)
      else
        (Except.ok (),
          ⟨updTasks s.tasks tid (fun u =>
            { u with status := "done", completed_at := some now, updated_at := now })⟩)

/-- `POST /tasks/{task_id}/block` (`block_task`): transitions to `'blocked'`
from any state without touching `completed_at`.  (The blocking-reason comment
row is omitted with the side tables.) -/
def block_task (s : TaskStore) (tid caller content : String) (now : Time) :
    Except HErr Unit × TaskStore :=
  match findTask s tid with
  | none => (Except.error (HErr.notFound "Task not found"), s)
  | some _ =>
      (Except.ok (),
        ⟨updTasks s.tasks tid (fun u =>
          { u with status := "blocked", updated_at := now,
                   left_done := u.left_done || u.status = "done" })⟩)

/-- The body of `PATCH /tasks/{task_id}`. -/
structure TaskUpdate where
  title : Option String
  description : Option String
  priority : Option String
  assigned_to : Option String
  tags : Option (List String)
  status : Option String
  due_by : Option Time
deriving Repr, DecidableEq

/-- The net effect of the UPDATE built by `update_task`: each given field is
overwritten; `completed_at` is stamped exactly when the new status is
`'done'`; `updated_at` is always bumped.  The ghost `left_done` records a
transition out of `'done'`. -/
def applyTaskUpdate (b : TaskUpdate) (now : Time) (t : Task) : Task :=
  { t with
    title := b.title.getD t.title
    description := b.description.getD t.description
    priority := b.priority.getD t.priority
    assigned_to := match b.assigned_to with | some x => some x | none => t.assigned_to
    tags := b.tags.getD t.tags
    status := b.status.getD t.status
    completed_at := if b.status = some "done" then some now else t.completed_at
    left_done := t.left_done || (t.status = "done" && b.status.any (fun st => st ≠ "done"))
    due_by := match b.due_by with | some x => some x | none => t.due_by
    updated_at := now }

/-- `PATCH /tasks/{task_id}` (`update_task`): 404 when absent; 400 on an
invalid priority or status enum; 400 when no field is given; otherwise apply
the accumulated UPDATE. -/
def update_task (s : TaskStore) (tid : String) (b : TaskUpdate) (caller : String)
    (now : Time) : Except HErr Unit × TaskStore :=
  match findTask s tid with
  | none => (Except.error (HErr.notFound "Task not found"), s)
  | some _ =>
      if b.priority.any (fun p => !(validPriority p)) then
        (Except.error (HErr.badRequest "Invalid priority"), s)
      else if b.status.any (fun st => !(validStatus st)) then
        (Except.error (HErr.badRequest "Bad status value"), s)
      else if b.title.isNone && b.description.isNone && b.priority.isNone &&
          b.assigned_to.isNone && b.tags.isNone && b.status.isNone && b.due_by.isNone then
        (Except.error (HErr.badRequest "No updates provided"), s)
      else
        (Except.ok (), ⟨updTasks s.tasks tid (applyTaskUpdate b now)⟩)

/-- One mutating task-board operation. -/
inductive TaskStep : TaskStore → TaskStore → Prop where
  | create (s : TaskStore) (title description priority : String)
      (assigned_to : Option String) (tags : List String) (due_by : Option Time)
      (parent_id project_id milestone_id effort_estimate : Option String)
      (caller tid : String) (now : Time) (hfresh : ∀ t ∈ s.tasks, t.id ≠ tid) :
      TaskStep s (create_task s title description priority assigned_to tags due_by
        parent_id project_id milestone_id effort_estimate caller tid now).2
  | claim (s : TaskStore) (tid caller : String) (now : Time) :
      TaskStep s (claim_task s tid caller now).2
  | start (s : TaskStore) (tid caller : String) (now : Time) :
      TaskStep s (start_task s tid caller now).2
  | complete (s : TaskStore) (tid caller : String) (now : Time) :
      TaskStep s (complete_task s tid caller now).2
  | block (s : TaskStore) (tid caller content : String) (now : Time) :
      TaskStep s (block_task s tid caller content now).2
  | update (s : TaskStore) (tid : String) (b : TaskUpdate) (caller : String) (now : Time) :
      TaskStep s (update_task s tid b caller now).2

inductive TaskReach : TaskStore → Prop where
  | empty : TaskReach emptyTaskStore
  | step {s s' : TaskStore} : TaskReach s → TaskStep s s' → TaskReach s'

/-! ### The completed_at invariant -/

/-- Inductive invariant of the task board: task ids are unique (uuid4), a
`'done'` task has a non-null `completed_at`, and a task that is not `'done'`
and never left `'done'` has a null `completed_at`. -/
def TaskInv (s : TaskStore) : Prop :=
  (s.tasks.map (fun t => t.id)).Nodup ∧
  ∀ t ∈ s.tasks,
    (t.status = "done" → t.completed_at ≠ none) ∧
    (t.status ≠ "done" → t.left_done = false → t.completed_at = none)

theorem taskInv_empty : TaskInv emptyTaskStore := by
  refine ⟨List.nodup_nil, ?_⟩
  intro t ht; cases ht

theorem taskRow_eq {s : TaskStore} (hnd : (s.tasks.map (fun t => t.id)).Nodup)
    {tid : String} {t0 t : Task} (hfind : findTask s tid = some t0)
    (ht : t ∈ s.tasks) (hid : t.id = tid) : t = t0 := by
  have h0mem : t0 ∈ s.tasks := List.mem_of_find?_eq_some hfind
  have h0id : t0.id = tid := by simpa using List.find?_some hfind
  exact List.inj_on_of_nodup_map hnd ht h0mem (hid.trans h0id.symm)

theorem updTasks_map_id (l : List Task) (tid : String) (f : Task → Task)
    (hf : ∀ t, (f t).id = t.id) :
    (updTasks l tid f).map (fun t => t.id) = l.map (fun t => t.id) := by
  unfold updTasks
  rw [List.map_map]
  refine List.map_congr_left ?_
  intro t _
  show (if t.id = tid then f t else t).id = t.id
  by_cases h : t.id = tid
  · rw [if_pos h, hf]
  · rw [if_neg h]

theorem taskInv_updTasks {s : TaskStore} (h : TaskInv s) (tid : String) (f : Task → Task)
    (hf_id : ∀ t, (f t).id = t.id)
    (hok : ∀ t ∈ s.tasks, t.id = tid →
      ((f t).status = "done" → (f t).completed_at ≠ none) ∧
      ((f t).status ≠ "done" → (f t).left_done = false → (f t).completed_at = none)) :
    TaskInv ⟨updTasks s.tasks tid f⟩ := by
  obtain ⟨hnd, hinv⟩ := h
  constructor
  · show ((updTasks s.tasks tid f).map (fun t => t.id)).Nodup
    rw [updTasks_map_id _ _ _ hf_id]
    exact hnd
  · intro t' ht'
    obtain ⟨t, ht, hteq⟩ := List.mem_map.mp ht'
    replace hteq : (if t.id = tid then f t else t) = t' := hteq
    by_cases hid : t.id = tid
    · rw [if_pos hid] at hteq
      rw [← hteq]
      exact hok t ht hid
    · rw [if_neg hid] at hteq
      rw [← hteq]
      exact hinv t ht

theorem taskInv_step {s s' : TaskStore} (h : TaskInv s) (st : TaskStep s s') :
    TaskInv s' := by
  cases st with
  | create title description priority assigned_to tags due_by parent_id project_id
      milestone_id effort_estimate caller tid now hfresh =>
    unfold create_task
    split
    · exact h
    · split
      · exact h
      · refine ⟨?_, ?_⟩
        · rw [List.map_cons]
          refine List.nodup_cons.mpr ⟨?_, h.1⟩
          simp only [List.mem_map, not_exists]
          rintro t ⟨ht, hid⟩
          exact hfresh t ht hid
        · intro t ht
          rcases List.mem_cons.mp ht with rfl | ht'
          · refine ⟨fun hdone => ?_, fun _ _ => rfl⟩
            exact absurd (show ("open" : String) = "done" from hdone) (by decide)
          · exact h.2 t ht'
  | claim tid caller now =>
    unfold claim_task
    cases hfind : findTask s tid with
    | none => exact h
    | some t0 =>
      dsimp only
      by_cases hst : t0.status ≠ "open"
      · rw [if_pos hst]; exact h
      · rw [if_neg hst]
        push_neg at hst
        refine taskInv_updTasks h tid _ (fun t => rfl) ?_
        intro t ht hid
        cases taskRow_eq h.1 hfind ht hid
        refine ⟨fun hdone => ?_, fun _ hld => ?_⟩
        · exact absurd (show ("claimed" : String) = "done" from hdone) (by decide)
        · exact (h.2 t0 ht).2 (by rw [hst]; decide) hld
  | start tid caller now =>
    unfold start_task
    cases hfind : findTask s tid with
    | none => exact h
    | some t0 =>
      dsimp only
      by_cases hst : (t0.status = "open" || t0.status = "claimed") = true
      · rw [if_neg (by simp [hst])]
        refine taskInv_updTasks h tid _ (fun t => rfl) ?_
        intro t ht hid
        cases taskRow_eq h.1 hfind ht hid
        refine ⟨fun hdone => ?_, fun _ hld => ?_⟩
        · exact absurd (show ("in_progress" : String) = "done" from hdone) (by decide)
        · refine (h.2 t0 ht).2 ?_ hld
          rcases Bool.or_eq_true_iff.mp hst with ho | ho <;>
            · rw [show t0.status = _ from of_decide_eq_true ho]; decide
      · rw [if_pos (by simpa using hst)]
        exact h
  | complete tid caller now =>
    unfold complete_task
    cases hfind : findTask s tid with
    | none => exact h
    | some t0 =>
      dsimp only
      split
      · exact h
      · refine taskInv_updTasks h tid _ (fun t => rfl) ?_
        intro t ht hid
        refine ⟨fun _ => by simp, fun hne _ => absurd rfl hne⟩
  | block tid caller content now =>
    unfold block_task
    cases hfind : findTask s tid with
    | none => exact h
    | some t0 =>
      dsimp only
      refine taskInv_updTasks h tid _ (fun t => rfl) ?_
      intro t ht hid
      refine ⟨fun hdone => ?_, fun _ hld => ?_⟩
      · exact absurd (show ("blocked" : String) = "done" from hdone) (by decide)
      · replace hld : (t.left_done || t.status = "done") = false := hld
        rcases Bool.or_eq_false_iff.mp hld with ⟨hld1, hld2⟩
        refine (h.2 t ht).2 ?_ hld1
        intro hc
        rw [hc] at hld2
        simp at hld2
  | update tid b caller now =>
    unfold update_task
    cases hfind : findTask s tid with
    | none => exact h
    | some t0 =>
      dsimp only
      split
      · exact h
      · split
        · exact h
        · split
          · exact h
          · refine taskInv_updTasks h tid _ (fun t => rfl) ?_
            intro t ht _
            have hold := h.2 t ht
            unfold applyTaskUpdate
            constructor
            · show b.status.getD t.status = "done" →
                (if b.status = some "done" then some now else t.completed_at) ≠ none
              cases hb : b.status with
              | some st =>
                intro hdone
                simp only [Option.getD_some] at hdone
                rw [if_pos (by rw [hdone])]
                simp
              | none =>
                intro hdone
                simp only [Option.getD_none] at hdone
                rw [if_neg (by simp)]
                exact hold.1 hdone
            · show b.status.getD t.status ≠ "done" →
                (t.left_done || (t.status = "done" && b.status.any (fun st => st ≠ "done"))) = false →
                (if b.status = some "done" then some now else t.completed_at) = none
              cases hb : b.status with
              | some st =>
                intro hne hld
                simp only [Option.getD_some] at hne
                rcases Bool.or_eq_false_iff.mp hld with ⟨hld1, hld2⟩
                rw [if_neg (fun hc => hne (Option.some.inj hc))]
                by_cases hts : t.status = "done"
                · exfalso
                  rw [hts] at hld2
                  simp [hne] at hld2
                · exact hold.2 hts hld1
              | none =>
                intro hne hld
                simp only [Option.getD_none] at hne
                rcases Bool.or_eq_false_iff.mp hld with ⟨hld1, _⟩
                rw [if_neg (by simp)]
                exact hold.2 hne hld1

theorem taskInv_of_reach {s : TaskStore} (h : TaskReach s) : TaskInv s := by
  induction h with
  | empty => exact taskInv_empty
  | step _ st ih => exact taskInv_step ih st

/-- C3: in every reachable task-board state, a `'done'` task carries a
non-null `completed_at` and a task that is not `'done'` carries a null
`completed_at` unless it previously transitioned away from `'done'` (the
ghost `left_done` flag); the six listed operations each preserve this. -/
theorem task_completed_at_invariant :
    ∀ s : TaskStore, TaskReach s → ∀ t ∈ s.tasks,
      (t.status = "done" → t.completed_at ≠ none) ∧
      (t.status ≠ "done" → t.left_done = false → t.completed_at = none) := by
  intro s hs
  exact (taskInv_of_reach hs).2

/-- A concrete reachable board: one task created and then completed. -/
def doneBoard : TaskStore :=
  (complete_task
    (create_task emptyTaskStore "T1" "" "urgent" none [] none none none none none
      "alice" "t1" 1).2
    "t1" "alice" 2).2

theorem task_completed_at_invariant_witness :
    ∃ t ∈ doneBoard.tasks, t.status = "done" ∧ t.completed_at ≠ none := by
  have hreach : TaskReach doneBoard :=
    TaskReach.step
      (TaskReach.step TaskReach.empty
        (TaskStep.create emptyTaskStore "T1" "" "urgent" none [] none none none none none
          "alice" "t1" 1 (fun t ht => absurd ht (fun hc => nomatch hc))))
      (TaskStep.complete _ "t1" "alice" 2)
  obtain ⟨tk, hmem, hdone⟩ : ∃ t ∈ doneBoard.tasks, t.status = "done" := by decide
  exact ⟨tk, hmem, hdone,
    (task_completed_at_invariant doneBoard hreach tk hmem).1 hdone⟩

theorem findTask_updTasks (l : List Task) (tid : String) (f : Task → Task)
    (hf : ∀ t, (f t).id = t.id) :
    (updTasks l tid f).find? (fun t => t.id = tid) =
      ((l.find? (fun t => t.id = tid)).map
        (fun t => if t.id = tid then f t else t)) := by
  induction l with
  | nil => rfl
  | cons x xs ih =>
    show ((if x.id = tid then f x else x) :: updTasks xs tid f).find? _ = _
    by_cases hx : x.id = tid
    · rw [if_pos hx]
      rw [List.find?_cons_of_pos _ (by simpa using (hf x).trans hx),
        List.find?_cons_of_pos _ (by simpa using hx)]
      simp [hx]
    · rw [if_neg hx]
      rw [List.find?_cons_of_neg _ (by simpa using hx),
        List.find?_cons_of_neg _ (by simpa using hx)]
      exact ih

/-- C5: for an existing task, `POST claim` succeeds exactly from status
`'open'` — setting status `'claimed'` and `claimed_by` to the caller — and
answers 400 with the offending status otherwise; `POST start` succeeds exactly
from `'open'` or `'claimed'` — setting status `'in_progress'` and leaving an
existing `claimed_by` untouched (`COALESCE`), claiming for the caller only
when it was null — and answers 400 otherwise. -/
theorem claim_and_start_transitions (s : TaskStore) (tid caller : String)
    (now : Time) (t : Task) (hfind : findTask s tid = some t) :
    ((claim_task s tid caller now).1 = Except.ok () ↔ t.status = "open") ∧
    (t.status = "open" →
      findTask (claim_task s tid caller now).2 tid =
        some { t with status := "claimed", claimed_by := some caller, updated_at := now }) ∧
    (t.status ≠ "open" →
      claim_task s tid caller now =
        (Except.error (HErr.badRequest ("Cannot claim task with status " ++ t.status)), s)) ∧
    ((start_task s tid caller now).1 = Except.ok () ↔
      (t.status = "open" ∨ t.status = "claimed")) ∧
    ((t.status = "open" ∨ t.status = "claimed") →
      findTask (start_task s tid caller now).2 tid =
        some { t with status := "in_progress",
                      claimed_by := some (t.claimed_by.getD caller),
                      updated_at := now }) ∧
    (¬(t.status = "open" ∨ t.status = "claimed") →
      start_task s tid caller now =
        (Except.error (HErr.badRequest ("Cannot start task with status " ++ t.status)), s)) := by
  have htid : t.id = tid := by
    simpa using List.find?_some hfind
  refine ⟨?_, ?_, ?_, ?_, ?_, ?_⟩
  · unfold claim_task
    rw [hfind]
    dsimp only
    by_cases hst : t.status = "open"
    · rw [if_neg (by simp [hst])]
      simp [hst]
    · rw [if_pos hst]
      simp [hst]
  · intro hst
    unfold claim_task
    rw [hfind]
    dsimp only
    rw [if_neg (by simp [hst])]
    show (updTasks s.tasks tid _).find? (fun u => u.id = tid) = _
    rw [findTask_updTasks s.tasks tid
      (fun u => { u with status := "claimed", claimed_by := some caller, updated_at := now })
      (fun u => rfl)]
    unfold findTask at hfind
    rw [hfind]
    simp [htid]
  · intro hst
    unfold claim_task
    rw [hfind]
    dsimp only
    rw [if_pos hst]
  · unfold start_task
    rw [hfind]
    dsimp only
    by_cases hst : (t.status = "open" || t.status = "claimed") = true
    · rw [if_neg (by simp [hst])]
      simpa using hst
    · rw [if_pos (by simpa using hst)]
      constructor
      · intro hc; cases hc
      · intro hc
        exact absurd (by simpa using hc) hst
  · intro hst
    unfold start_task
    rw [hfind]
    dsimp only
    rw [if_neg (by simp; tauto)]
    show (updTasks s.tasks tid _).find? (fun u => u.id = tid) = _
    rw [findTask_updTasks s.tasks tid
      (fun u => { u with status := "in_progress",
                         claimed_by := some (u.claimed_by.getD caller),
                         updated_at := now })
      (fun u => rfl)]
    unfold findTask at hfind
    rw [hfind]
    simp [htid]
  · intro hst
    unfold start_task
    rw [hfind]
    dsimp only
    rw [if_pos (by simp; tauto)]

/-- A board holding a single open task "t1". -/
def openBoard : TaskStore :=
  (create_task emptyTaskStore "T1" "" "urgent" none [] none none none none none
    "alice" "t1" 1).2

theorem claim_and_start_transitions_witness :
    ((claim_task openBoard "t1" "alice" 2).1 = Except.ok () ↔
      ("open" : String) = "open") ∧
    findTask (claim_task openBoard "t1" "alice" 2).2 "t1" =
      some ⟨"t1", "T1", "", "claimed", "urgent", "alice", none, some "alice", [],
        1, 2, none, none, none, none, none, none, false⟩ := by
  have hfind : findTask openBoard "t1" =
      some ⟨"t1", "T1", "", "open", "urgent", "alice", none, none, [],
        1, 1, none, none, none, none, none, none, false⟩ := by decide
  have h := claim_and_start_transitions openBoard "t1" "alice" 2 _ hfind
  exact ⟨h.1, h.2.1 rfl⟩

/-! ## Revisions: agent git (`/git/repos`) -/

structure GitRepo where
  id : String
  name : String
  description : String
  created_by : String
  created_at : Time
  default_branch : String
  project_id : Option String
deriving Repr, DecidableEq

structure GitBranch where
  repo_id : String
  name : String
  head_commit : Option String
deriving Repr, DecidableEq

structure GitCommitRow where
  id : String
  repo_id : String
  branch : String
  author : String
  message : String
  created_at : Time
  parent_id : Option String
deriving Repr, DecidableEq

/-- A row of `git_files`.  `size` is `len(content.encode())`; the per-row
uuid and the stdlib-computed `sha256` column are consulted by no modelled
query and are omitted. -/
structure GitFileRow where
  commit_id : String
  path : String
  content : String
  size : Nat
  action : String
deriving Repr, DecidableEq

structure GitStore where
  repos : List GitRepo
  branches : List GitBranch
  commits : List GitCommitRow
  gfiles : List GitFileRow
deriving Repr, DecidableEq

/-- One entry of the `files` list of a commit request, after the handler's
`f.get("path", "")` / `f.get("content", "")` / `f.get("action", "add")`
defaulting. -/
structure CommitFile where
  path : String
  content : String
  action : String
deriving Repr, DecidableEq

/-- `POST /git/repos/{repo_name}/commit` (`git_commit`): 404 on unknown repo,
400 on an empty `files` list; otherwise create the branch row on demand (null
head), insert the commit whose parent is the previous branch head, insert one
`git_files` row per entry, and advance the branch head to the new commit. -/
def git_commit (s : GitStore) (repo_name message branch : String)
    (files : List CommitFile) (author cid : String) (now : Time) :
    Except HErr String × GitStore :=
  match s.repos.find? (fun r => r.name = repo_name) with
  | none => (Except.error (HErr.notFound "Repo not found"), s)
  | some repo =>
      if files = [] then (Except.error (HErr.badRequest "No files in commit"), s)
      else
        let pb : Option String × List GitBranch :=
          match s.branches.find? (fun b => b.repo_id = repo.id && b.name = branch) with
          | none => (none, ⟨repo.id, branch, none⟩ :: s.branches)
          | some b => (b.head_commit, s.branches)
        (Except.ok cid,
          { repos := s.repos
            branches := pb.2.map (fun b =>
              if b.repo_id = repo.id && b.name = branch
              then { b with head_commit := some cid } else b)
            commits := ⟨cid, repo.id, branch, author, message, now, pb.1⟩ :: s.commits
            gfiles :=
              (files.map (fun f => ⟨cid, f.path, f.content, utf8Len f.content, f.action⟩)) ++
                s.gfiles })

/-- One step of `ORDER BY gc.created_at DESC LIMIT 1`: keep the row with the
strictly larger commit time, preferring the incumbent on ties. -/
def pickStep (acc : Option (GitFileRow × Time)) (x : GitFileRow × Time) :
    Option (GitFileRow × Time) :=
  match acc with
  | none => some x
  | some y => if x.2 > y.2 then some x else some y

/-- Pick a row of maximal commit time (SQLite leaves the tie order
unspecified; every use below carries a strict-maximum hypothesis). -/
def pickLatest (l : List (GitFileRow × Time)) : Option (GitFileRow × Time) :=
  l.foldl pickStep none

/-- `GET /git/repos/{repo_name}/files/{file_path}` (`git_read_file`): latest
row for the path among commits of the repo's branch; 404 when absent or when
that row's action is `'delete'`.  (`git_commits.id` is the primary key, so
the SQL join resolves each file row to at most one commit — embedded with
`find?`.) -/
def git_read_file (s : GitStore) (repo_name branch file_path : String) :
    Except HErr String :=
  match s.repos.find? (fun r => r.name = repo_name) with
  | none => Except.error (HErr.notFound "Repo not found")
  | some repo =>
      match pickLatest (s.gfiles.filterMap (fun gf =>
        if gf.path = file_path then
          match s.commits.find? (fun c => c.id = gf.commit_id) with
          | some c =>
              if c.repo_id = repo.id && c.branch = branch then some (gf, c.created_at)
              else none
          | none => none
        else none)) with
      | none => Except.error (HErr.notFound "File not found")
      | some x =>
          if x.1.action = "delete" then Except.error (HErr.notFound "File not found")
          else Except.ok x.1.content

/-- The most recent earlier version of `path` on the commit's branch — the
inner SELECT of `git_diff`, with `""` when no row exists (`old["content"] if
old else ""`). -/
def mostRecentEarlierContent (s : GitStore) (commit : GitCommitRow) (path : String) :
    String :=
  match pickLatest (s.gfiles.filterMap (fun gf =>
    if gf.path = path then
      match s.commits.find? (fun c => c.id = gf.commit_id) with
      | some c =>
          if c.repo_id = commit.repo_id && c.branch = commit.branch &&
              c.created_at < commit.created_at then some (gf, c.created_at)
          else none
      | none => none
    else none)) with
  | none => ""
  | some x => x.1.content

/-- `GET /git/repos/{repo_name}/diff/{commit_id}` (`git_diff`), parameterized
by the text-diff routine `udiff old new fromfile tofile`, which stands for
`"".join(difflib.unified_diff(old.splitlines(True), new.splitlines(True),
fromfile=fromfile, tofile=tofile))` — an external stdlib algorithm kept
abstract.  Yields one (path, action, diff text) triple per file row of the
commit.  `repo_name` is accepted but never consulted, exactly as in the
handler; `commit["parent_id"] and ...` tests Python truthiness, which for a
uuid-or-None column is `isSome`. -/
def git_diff (udiff : String → String → String → String → String)
    (s : GitStore) (repo_name commit_id : String) :
    Except HErr (List (String × String × String)) :=
  match s.commits.find? (fun c => c.id = commit_id) with
  | none => Except.error (HErr.notFound "Commit not found")
  | some commit =>
      Except.ok ((s.gfiles.filter (fun gf => gf.commit_id = commit_id)).map (fun f =>
        if commit.parent_id.isSome && f.action = "modify" then
          (f.path, f.action,
            udiff (mostRecentEarlierContent s commit f.path) f.content
              ("a/" ++ f.path) ("b/" ++ f.path))
        else if f.action = "delete" then
          (f.path, f.action, "--- a/" ++ f.path ++ "\n+++ /dev/null\n(file deleted)")
        else
          (f.path, f.action,
            "--- /dev/null\n+++ b/" ++ f.path ++ "\n(new file, " ++ toString f.size ++
              " bytes)")))

/-- C9: committing an empty file list to an existing repo is rejected with
400 before anything is written: no commit row, no file rows, and no branch
movement — the returned store is the input store. -/
theorem commit_empty_files_rejected (s : GitStore)
    (repo_name message branch author cid : String) (now : Time) (repo : GitRepo)
    (hrepo : s.repos.find? (fun r => r.name = repo_name) = some repo) :
    git_commit s repo_name message branch [] author cid now =
      (Except.error (HErr.badRequest "No files in commit"), s) := by
  unfold git_commit
  rw [hrepo]
  rfl

/-- A store holding one repo "r1" with an empty `main` branch. -/
def gitBase : GitStore :=
  ⟨[⟨"r", "r1", "", "alice", 0, "main", none⟩], [⟨"r", "main", none⟩], [], []⟩

theorem commit_empty_files_rejected_witness :
    git_commit gitBase "r1" "msg" "main" [] "alice" "k9" 3 =
      (Except.error (HErr.badRequest "No files in commit"), gitBase) :=
  commit_empty_files_rejected gitBase "r1" "msg" "main" "alice" "k9" 3
    ⟨"r", "r1", "", "alice", 0, "main", none⟩ (by decide)

theorem pickStep_some (acc : Option (GitFileRow × Time)) (x : GitFileRow × Time) :
    ∃ z, pickStep acc x = some z ∧
      (z = x ∨ acc = some z) ∧ x.2 ≤ z.2 ∧ (∀ a, acc = some a → a.2 ≤ z.2) := by
  cases acc with
  | none => exact ⟨x, rfl, Or.inl rfl, le_refl _, fun a ha => nomatch ha⟩
  | some y =>
    by_cases h : x.2 > y.2
    · refine ⟨x, by simp [pickStep, h], Or.inl rfl, le_refl _, ?_⟩
      intro a ha
      cases Option.some.inj ha
      exact le_of_lt h
    · refine ⟨y, by simp [pickStep, h], Or.inr rfl, le_of_not_lt h, ?_⟩
      intro a ha
      cases Option.some.inj ha
      exact le_refl _

theorem foldl_pickStep_spec :
    ∀ (l : List (GitFileRow × Time)) (acc : Option (GitFileRow × Time))
      (m : GitFileRow × Time), l.foldl pickStep acc = some m →
      (m ∈ l ∨ acc = some m) ∧ (∀ x ∈ l, x.2 ≤ m.2) ∧ (∀ a, acc = some a → a.2 ≤ m.2)
  | [], acc, m, h => by
    refine ⟨Or.inr h, ?_, ?_⟩
    · intro x hx
      cases hx
    · intro a ha
      have h' : acc = some m := h
      rw [h'] at ha
      cases Option.some.inj ha
      exact le_refl _
  | x :: xs, acc, m, h => by
    have h' : xs.foldl pickStep (pickStep acc x) = some m := h
    obtain ⟨hmem, hle, hacc⟩ := foldl_pickStep_spec xs (pickStep acc x) m h'
    obtain ⟨z, hz, hzor, hxz, hzacc⟩ := pickStep_some acc x
    refine ⟨?_, ?_, ?_⟩
    · rcases hmem with hm | hm
      · exact Or.inl (List.mem_cons_of_mem _ hm)
      · rw [hz] at hm
        cases Option.some.inj hm
        rcases hzor with rfl | hzacc2
        · exact Or.inl (List.mem_cons_self _ _)
        · exact Or.inr hzacc2
    · intro y hy
      rcases List.mem_cons.mp hy with rfl | hy'
      · exact le_trans hxz (hacc z hz)
      · exact hle y hy'
    · intro a ha
      exact le_trans (hzacc a ha) (hacc z hz)

theorem foldl_pickStep_none :
    ∀ (l : List (GitFileRow × Time)) (acc : Option (GitFileRow × Time)),
      l.foldl pickStep acc = none → acc = none ∧ l = []
  | [], _, h => ⟨h, rfl⟩
  | x :: xs, acc, h => by
    have hrec := foldl_pickStep_none xs (pickStep acc x) h
    obtain ⟨z, hz, -⟩ := pickStep_some acc x
    rw [hz] at hrec
    exact absurd hrec.1 (by simp)

theorem pickLatest_eq_of_strict_max {l : List (GitFileRow × Time)}
    {e : GitFileRow × Time} (he : e ∈ l)
    (hmax : ∀ x ∈ l, x ≠ e → x.2 < e.2) : pickLatest l = some e := by
  cases hp : pickLatest l with
  | none =>
    have := (foldl_pickStep_none l none hp).2
    rw [this] at he
    cases he
  | some m =>
    obtain ⟨hmem, hle, -⟩ := foldl_pickStep_spec l none m hp
    rcases hmem with hm | hm
    · by_cases hme : m = e
      · rw [hme]
      · exact absurd (hle e he) (not_le.mpr (hmax m hm hme))
    · cases hm

theorem find?_commits_eq {s : GitStore}
    (huniq : ∀ c₁ ∈ s.commits, ∀ c₂ ∈ s.commits, c₁.id = c₂.id → c₁ = c₂)
    {K : GitCommitRow} (hK : K ∈ s.commits) :
    s.commits.find? (fun c => c.id = K.id) = some K := by
  cases hf : s.commits.find? (fun c => c.id = K.id) with
  | none => exact absurd (by simp) (List.find?_eq_none.mp hf K hK)
  | some c' =>
    have hc'm : c' ∈ s.commits := List.mem_of_find?_eq_some hf
    have hc'id : c'.id = K.id := by simpa using List.find?_some hf
    rw [huniq c' hc'm K hK hc'id]

/-- C7: round trip through the revision store.  If commit `K` of repo
`repo_name` on branch `B` carries exactly one file row for path `P`, with
content `C` and a non-delete action, and every other commit on that branch
touching `P` is strictly older (no later commit on `B` touches `P` —
`time.time()` is strictly increasing across commits in practice), then
`GET /git/repos/{repo_name}/files/{P}?branch=B` returns `C`.  Commit ids are
assumed unique across rows (they are uuids and the table's primary key). -/
theorem git_commit_read_roundtrip (s : GitStore) (repo_name B P C act : String)
    (repo : GitRepo) (K : GitCommitRow)
    (hrepo : s.repos.find? (fun r => r.name = repo_name) = some repo)
    (hK : K ∈ s.commits) (hKrepo : K.repo_id = repo.id) (hKbranch : K.branch = B)
    (hrow : s.gfiles.filter (fun gf => gf.commit_id = K.id && gf.path = P) =
      [⟨K.id, P, C, utf8Len C, act⟩])
    (hact : act = "add" ∨ act = "modify")
    (hlater : ∀ c ∈ s.commits, c.id ≠ K.id → c.repo_id = repo.id → c.branch = B →
      (∃ gf ∈ s.gfiles, gf.commit_id = c.id ∧ gf.path = P) →
      c.created_at < K.created_at)
    (huniq : ∀ c₁ ∈ s.commits, ∀ c₂ ∈ s.commits, c₁.id = c₂.id → c₁ = c₂) :
    git_read_file s repo_name B P = Except.ok C := by
  have hrow_mem : (⟨K.id, P, C, utf8Len C, act⟩ : GitFileRow) ∈ s.gfiles := by
    have : (⟨K.id, P, C, utf8Len C, act⟩ : GitFileRow) ∈
        s.gfiles.filter (fun gf => gf.commit_id = K.id && gf.path = P) := by
      rw [hrow]
      exact List.mem_cons_self _ _
    exact (List.mem_filter.mp this).1
  have hKfind : s.commits.find? (fun c => c.id = K.id) = some K := find?_commits_eq huniq hK
  unfold git_read_file
  rw [hrepo]
  dsimp only
  set cands := s.gfiles.filterMap (fun gf =>
    if gf.path = P then
      match s.commits.find? (fun c => c.id = gf.commit_id) with
      | some c =>
          if c.repo_id = repo.id && c.branch = B then some (gf, c.created_at)
          else none
      | none => none
    else none) with hcands
  have he_mem : ((⟨K.id, P, C, utf8Len C, act⟩ : GitFileRow), K.created_at) ∈ cands := by
    rw [hcands]
    refine List.mem_filterMap.mpr ⟨⟨K.id, P, C, utf8Len C, act⟩, hrow_mem, ?_⟩
    show (if (P : String) = P then
        match s.commits.find? (fun c => c.id = K.id) with
        | some c =>
            if c.repo_id = repo.id && c.branch = B then
              some ((⟨K.id, P, C, utf8Len C, act⟩ : GitFileRow), c.created_at)
            else none
        | none => none
      else none) = some ((⟨K.id, P, C, utf8Len C, act⟩ : GitFileRow), K.created_at)
    rw [if_pos rfl, hKfind]
    dsimp only
    rw [if_pos (by simp [hKrepo, hKbranch])]
  have hmax : ∀ x ∈ cands,
      x ≠ ((⟨K.id, P, C, utf8Len C, act⟩ : GitFileRow), K.created_at) →
      x.2 < K.created_at := by
    intro x hx hne
    rw [hcands] at hx
    obtain ⟨gf, hgf_mem, hgf_eq⟩ := List.mem_filterMap.mp hx
    replace hgf_eq : (if gf.path = P then
        match s.commits.find? (fun c => c.id = gf.commit_id) with
        | some c =>
            if c.repo_id = repo.id && c.branch = B then some (gf, c.created_at)
            else none
        | none => none
      else none) = some x := hgf_eq
    by_cases hpath : gf.path = P
    · rw [if_pos hpath] at hgf_eq
      cases hcf : s.commits.find? (fun c => c.id = gf.commit_id) with
      | none =>
        rw [hcf] at hgf_eq
        dsimp only at hgf_eq
        cases hgf_eq
      | some c =>
        rw [hcf] at hgf_eq
        dsimp only at hgf_eq
        by_cases hrb : (c.repo_id = repo.id && c.branch = B) = true
        · rw [if_pos hrb] at hgf_eq
          cases Option.some.inj hgf_eq
          have hcmem : c ∈ s.commits := List.mem_of_find?_eq_some hcf
          have hcid : c.id = gf.commit_id := by simpa using List.find?_some hcf
          simp only [Bool.and_eq_true, decide_eq_true_eq] at hrb
          by_cases hcK : c.id = K.id
          · exfalso
            have hcEq : c = K := huniq c hcmem K hK hcK
            have hgfc : gf.commit_id = K.id := by rw [← hcid, hcK]
            have hgin : gf ∈ s.gfiles.filter
                (fun gf => gf.commit_id = K.id && gf.path = P) :=
              List.mem_filter.mpr ⟨hgf_mem, by simp [hgfc, hpath]⟩
            rw [hrow] at hgin
            have hgf_eqrow : gf = ⟨K.id, P, C, utf8Len C, act⟩ := by
              simpa using hgin
            exact hne (by rw [hgf_eqrow, hcEq])
          · exact hlater c hcmem hcK hrb.1 hrb.2 ⟨gf, hgf_mem, hcid.symm, hpath⟩
        · rw [if_neg hrb] at hgf_eq
          cases hgf_eq
    · rw [if_neg hpath] at hgf_eq
      cases hgf_eq
  have hpl : pickLatest cands =
      some ((⟨K.id, P, C, utf8Len C, act⟩ : GitFileRow), K.created_at) :=
    pickLatest_eq_of_strict_max he_mem hmax
  rw [hpl]
  dsimp only
  rw [if_neg (show ¬ act = "delete" by rcases hact with rfl | rfl <;> decide)]

/-- Two commits on `main`: `k1` adds `a.txt` with "hello" at time 1, `k2`
adds an unrelated `b.txt` at time 2. -/
def gitDemo : GitStore :=
  (git_commit
    (git_commit gitBase "r1" "add a" "main" [⟨"a.txt", "hello", "add"⟩] "alice" "k1" 1).2
    "r1" "add b" "main" [⟨"b.txt", "x", "add"⟩] "alice" "k2" 2).2

theorem git_commit_read_roundtrip_witness :
    git_read_file gitDemo "r1" "main" "a.txt" = Except.ok "hello" :=
  git_commit_read_roundtrip gitDemo "r1" "main" "a.txt" "hello" "add"
    ⟨"r", "r1", "", "alice", 0, "main", none⟩
    ⟨"k1", "r", "main", "alice", "add a", 1, none⟩
    (by decide) (by decide) rfl rfl (by decide) (Or.inl rfl) (by decide) (by decide)

/-- The literal form of the diff claim for `'modify'` entries: every modify
entry of a commit is rendered as a unified diff (the abstract `udiff`)
between the most recent earlier version of the path on the commit's branch
and the entry's content, labelled `a/{path}` and `b/{path}`. -/
def DiffModifyClaim : Prop :=
  ∀ (udiff : String → String → String → String → String) (s : GitStore)
    (repo_name commit_id : String) (commit : GitCommitRow)
    (result : List (String × String × String)),
    s.commits.find? (fun c => c.id = commit_id) = some commit →
    git_diff udiff s repo_name commit_id = Except.ok result →
    ∀ f ∈ s.gfiles, f.commit_id = commit_id → f.action = "modify" →
      (f.path, f.action,
        udiff (mostRecentEarlierContent s commit f.path) f.content
          ("a/" ++ f.path) ("b/" ++ f.path)) ∈ result

/-- A marker diff routine: any function whose output differs from the
new-file stub witnesses the refutation. -/
def udiffC (old new fromfile tofile : String) : String :=
  "UDIFF " ++ fromfile ++ " " ++ tofile ++ " " ++ old ++ " -> " ++ new

/-- A root commit on the on-demand branch "dev" whose single entry carries
action `'modify'`: the commit's `parent_id` is null. -/
def rootModStore : GitStore :=
  (git_commit gitBase "r1" "m" "dev" [⟨"a.txt", "x", "modify"⟩] "alice" "k1" 1).2

/-- C8, counterexample: `git_diff` renders a `'modify'` entry as a unified
diff only when the commit has a parent (`commit["parent_id"] and action ==
"modify"`).  A modify entry in a parentless commit — the first commit of an
on-demand branch — falls through to the new-file stub, so the claim as
stated is false. -/
theorem diff_modify_claim_refuted : ¬ DiffModifyClaim := by
  intro h
  have hfind : rootModStore.commits.find? (fun c => c.id = "k1") =
      some ⟨"k1", "r", "dev", "alice", "m", 1, none⟩ := by decide
  have hdiff : git_diff udiffC rootModStore "r1" "k1" =
      Except.ok [("a.txt", "modify", "--- /dev/null\n+++ b/a.txt\n(new file, 1 bytes)")] := by
    rfl
  have hmem := h udiffC rootModStore "r1" "k1" ⟨"k1", "r", "dev", "alice", "m", 1, none⟩
    [("a.txt", "modify", "--- /dev/null\n+++ b/a.txt\n(new file, 1 bytes)")]
    hfind hdiff ⟨"k1", "a.txt", "x", 1, "modify"⟩ (by decide) rfl rfl
  revert hmem
  decide

/-- C8 (amended): what `git_diff` actually returns, per file row of the
commit.  A `'modify'` entry yields the unified diff against the most recent
earlier version with `a/{path}` / `b/{path}` labels only when the commit has
a non-null parent; a `'delete'` entry always yields the `/dev/null` deletion
stub; every other entry — including a `'modify'` entry of a parentless
commit — yields the new-file stub. -/
theorem git_diff_dispatch (udiff : String → String → String → String → String)
    (s : GitStore) (repo_name commit_id : String) (commit : GitCommitRow)
    (hfind : s.commits.find? (fun c => c.id = commit_id) = some commit) :
    ∃ result, git_diff udiff s repo_name commit_id = Except.ok result ∧
      ∀ f ∈ s.gfiles, f.commit_id = commit_id →
        ((commit.parent_id.isSome = true ∧ f.action = "modify") →
          (f.path, f.action,
            udiff (mostRecentEarlierContent s commit f.path) f.content
              ("a/" ++ f.path) ("b/" ++ f.path)) ∈ result) ∧
        (f.action = "delete" →
          (f.path, f.action,
            "--- a/" ++ f.path ++ "\n+++ /dev/null\n(file deleted)") ∈ result) ∧
        ((commit.parent_id = none ∨ f.action ≠ "modify") → f.action ≠ "delete" →
          (f.path, f.action,
            "--- /dev/null\n+++ b/" ++ f.path ++ "\n(new file, " ++ toString f.size ++
              " bytes)") ∈ result) := by
  unfold git_diff
  rw [hfind]
  dsimp only
  refine ⟨_, rfl, ?_⟩
  intro f hf hfc
  have hmem : f ∈ s.gfiles.filter (fun gf => gf.commit_id = commit_id) :=
    List.mem_filter.mpr ⟨hf, by simpa using hfc⟩
  refine ⟨?_, ?_, ?_⟩
  · rintro ⟨hp, hm⟩
    have himg := List.mem_map_of_mem (f := fun f =>
      if commit.parent_id.isSome && f.action = "modify" then
        (f.path, f.action,
          udiff (mostRecentEarlierContent s commit f.path) f.content
            ("a/" ++ f.path) ("b/" ++ f.path))
      else if f.action = "delete" then
        (f.path, f.action, "--- a/" ++ f.path ++ "\n+++ /dev/null\n(file deleted)")
      else
        (f.path, f.action,
          "--- /dev/null\n+++ b/" ++ f.path ++ "\n(new file, " ++ toString f.size ++
            " bytes)")) hmem
    dsimp only at himg
    rwa [if_pos (by simp [hp, hm])] at himg
  · intro hdel
    have himg := List.mem_map_of_mem (f := fun f =>
      if commit.parent_id.isSome && f.action = "modify" then
        (f.path, f.action,
          udiff (mostRecentEarlierContent s commit f.path) f.content
            ("a/" ++ f.path) ("b/" ++ f.path))
      else if f.action = "delete" then
        (f.path, f.action, "--- a/" ++ f.path ++ "\n+++ /dev/null\n(file deleted)")
      else
        (f.path, f.action,
          "--- /dev/null\n+++ b/" ++ f.path ++ "\n(new file, " ++ toString f.size ++
            " bytes)")) hmem
    dsimp only at himg
    rw [if_neg (by rw [hdel]; simp), if_pos hdel] at himg
    exact himg
  · intro hnomod hnodel
    have himg := List.mem_map_of_mem (f := fun f =>
      if commit.parent_id.isSome && f.action = "modify" then
        (f.path, f.action,
          udiff (mostRecentEarlierContent s commit f.path) f.content
            ("a/" ++ f.path) ("b/" ++ f.path))
      else if f.action = "delete" then
        (f.path, f.action, "--- a/" ++ f.path ++ "\n+++ /dev/null\n(file deleted)")
      else
        (f.path, f.action,
          "--- /dev/null\n+++ b/" ++ f.path ++ "\n(new file, " ++ toString f.size ++
            " bytes)")) hmem
    dsimp only at himg
    rw [if_neg ?_, if_neg hnodel] at himg
    · exact himg
    · rcases hnomod with hpar | hmod
      · simp [hpar]
      · simp [hmod]

/-- Commit `k1` adds `a.txt` = "x" at time 1; commit `k2` (parent `k1`)
modifies it to "y" at time 2. -/
def gitMod : GitStore :=
  (git_commit
    (git_commit gitBase "r1" "m1" "main" [⟨"a.txt", "x", "add"⟩] "alice" "k1" 1).2
    "r1" "m2" "main" [⟨"a.txt", "y", "modify"⟩] "alice" "k2" 2).2

theorem git_diff_dispatch_witness :
    ∃ result, git_diff udiffC gitMod "r1" "k2" = Except.ok result ∧
      ("a.txt", "modify", udiffC "x" "y" "a/a.txt" "b/a.txt") ∈ result := by
  obtain ⟨result, hres, hchar⟩ := git_diff_dispatch udiffC gitMod "r1" "k2"
    ⟨"k2", "r", "main", "alice", "m2", 2, some "k1"⟩ (by decide)
  refine ⟨result, hres, ?_⟩
  have hm := (hchar ⟨"k2", "a.txt", "y", 1, "modify"⟩ (by decide) rfl).1 ⟨rfl, rfl⟩
  have heq : mostRecentEarlierContent gitMod
      ⟨"k2", "r", "main", "alice", "m2", 2, some "k1"⟩ "a.txt" = "x" := by decide
  rwa [heq] at hm

end AgentBridge
